import Mathlib

/-!
Verification development for the go-filecrypt repository.

Shallow embedding conventions:
* bytes are `Nat` values (the Go code stores them in `[]byte`; a byte read
  from a real stream is `< 256`, and well-formedness hypotheses state this
  where a proof needs it);
* sequential readers and writers are byte lists: a reader is the list of
  bytes it will yield, a writer accumulates the list of bytes written;
* randomness (`GenerateRandomBytes`, the HKDF salt, the AES IV, the GCM
  nonce) is modelled as oracle input: every random value drawn by the code
  is an explicit argument of the embedded function, universally quantified
  in the theorems;
* the cryptographic primitives named by the spec as external collaborators
  (the AES-CTR keystream, HMAC-SHA-256, HKDF-SHA-256, AES-GCM) are opaque
  parameters collected in `CryptoPrims`; theorems assume only the
  interface properties the spec gives them (output lengths, AEAD
  round-trip);
* fallible Go functions returning `(value, error)` become
  `Except FcError value`; Go runtime panics are modelled by a dedicated
  result constructor where a claim depends on them.
-/

namespace Filecrypt

/-- Error values of the repository: the `errors.New` values of
internal/container/constants.go, pkg/container/file_wrapper.go and
internal/cipher/errors.go, the sentinel errors of Go's io package that the
code lets escape (io.EOF, io.ErrUnexpectedEOF), the ad-hoc
`fmt.Errorf` size-mismatch error of containerWriteSlot, and the errors of
the Go crypto library surfaced unchanged (GCM open failure, key size). -/
inductive FcError where
  | invalidFileHeader
  | unsupportedVersion
  | unsupportedEncAlgo
  | unsupportedSlotAlgo
  | emptySlotContent
  | slotTooMuch
  | slotContentTooLarge
  | parameterMissing
  | producedHeaderTooBig
  | rootKeySealed
  | rootKeyAlreadyUnsealed
  | rootKeyUnsealFailed
  | slotInvalidRemove
  | slotDuplicated
  | noSlots
  | keyMissing
  | aesKeySizeMismatch
  | keySizeInvalid
  | ivMissingOrInvalid
  | authenticationFailed
  | authenticationKeyReused
  | invalidLength
  | aeadOpenFailed
  | eofReached
  | unexpectedEnd
  | slotSizeMismatch
  deriving DecidableEq, Repr

/-- Big-endian encoding of a 16-bit scalar, as produced by Go's
binary.Write with binary.BigEndian on a uint16. -/
def be16 (v : Nat) : List Nat := [v / 256 % 256, v % 256]

/-- Flip bit j (0 = least significant) of a byte. -/
def flipBit (b j : Nat) : Nat := b ^^^ 2 ^ j

/-- Flip bit j of the byte at position k of a byte list. -/
def flipByteAt (l : List Nat) (k j : Nat) : List Nat :=
  l.set k (flipBit (l.getD k 0) j)

/-- File encryption algorithm enumerants (internal/container/constants.go):
EncAlgAESCTR128 = 0, EncAlgAESCTR256 = 1, EncAlgEnd = 2. -/
def EncAlgAESCTR128 : Nat := 0

def EncAlgAESCTR256 : Nat := 1

def EncAlgEnd : Nat := 2

/-- Slot key algorithm enumerants: SlotKeyAlgAESGCM128 = 0, SlotKeyAlgEnd = 1. -/
def SlotKeyAlgAESGCM128 : Nat := 0

def SlotKeyAlgEnd : Nat := 1

/-- EncryptionAlgorithm.KeySize (internal/container/constants.go). The
source returns 16 for AES-CTR-128 and 24 for AES-CTR-256 and panics on any
other value; the panic branch is mapped to 0, and every use in this file is
guarded by algorithm validity. -/
def encKeySize (alg : Nat) : Nat :=
  if alg = EncAlgAESCTR128 then 16
  else if alg = EncAlgAESCTR256 then 24
  else 0

/-- The magic bytes of the container file header. -/
def FileMagicNumber : List Nat := [0x43, 0x52, 0x50, 0x54]

/-- Abstract cryptographic primitives, the external collaborators of the
spec. `ks key iv n` is byte n of the AES-CTR keystream for the given key
and 16-byte IV; `hmac key msg` is the 32-byte HMAC-SHA-256 tag; `hkdf ikm
salt i n` is the n-byte key number i derived by HKDF-SHA-256 with info
label key-i; `gcmSeal key nonce pt` is the AES-GCM sealing with a 12-byte
nonce, producing nonce, ciphertext and tag concatenated; `gcmOpen key c`
reverses it, `none` on authentication failure. -/
structure CryptoPrims where
  ks : List Nat → List Nat → Nat → Nat
  hmac : List Nat → List Nat → List Nat
  hkdf : List Nat → List Nat → Nat → Nat → List Nat
  gcmSeal : List Nat → List Nat → List Nat → List Nat
  gcmOpen : List Nat → List Nat → Option (List Nat)

/-- AESVerifyKeySize (internal/cipher): nil key is ErrKeyMissing, a length
other than 16, 24 or 32 is ErrAESKeySizeMismatch. -/
def AESVerifyKeySize (key : List Nat) : Option FcError :=
  if key = [] then some .keyMissing
  else if key.length = 16 ∨ key.length = 24 ∨ key.length = 32 then none
  else some .aesKeySizeMismatch

/-- Parameter validation of aesCTRNewStream (internal/cipher/aes_ctr.go):
the key size check, then the 16-byte IV check. -/
def aesCTRCheck (key iv : List Nat) : Option FcError :=
  match AESVerifyKeySize key with
  | some e => some e
  | none => if iv.length ≠ 16 then some .ivMissingOrInvalid else none

/-- XOR of a byte list against the keystream starting at stream offset
off: the effect of cipher.Stream.XORKeyStream applied in-place to data by
a CTR stream object that has already produced off keystream bytes. -/
def ctrApplyFrom (ks : Nat → Nat) : Nat → List Nat → List Nat
  | _, [] => []
  | off, b :: rest => (b ^^^ ks off) :: ctrApplyFrom ks (off + 1) rest

/-- Chunk size of the streaming loops (streamBufferSize in
internal/cipher/aes_ctr.go). -/
def streamBufferSize : Nat := 4096

/-- XORKeyStreamApply (internal/cipher): reads the input in chunks of at
most streamBufferSize bytes, XORs each against the (stateful) keystream and
appends it to the output. The reader is its byte list, so one maximal
chunking schedule is modelled; xorKeyStreamChunks_join below shows any
chunking schedule produces the same bytes. -/
def XORKeyStreamApply (ks : Nat → Nat) (off : Nat) (input : List Nat) : List Nat :=
  if h : input = [] then []
  else
    let chunk := input.take streamBufferSize
    ctrApplyFrom ks off chunk ++
      XORKeyStreamApply ks (off + chunk.length) (input.drop streamBufferSize)
termination_by input.length
decreasing_by
  simp only [List.length_drop]
  have hpos : 0 < input.length := List.length_pos.mpr h
  exact Nat.sub_lt hpos (by simp [streamBufferSize])

/-- Sequential processing of an arbitrary chunk decomposition of the input
by a stateful XOR stream. -/
def xorKeyStreamChunks (ks : Nat → Nat) : Nat → List (List Nat) → List Nat
  | _, [] => []
  | off, c :: rest => ctrApplyFrom ks off c ++ xorKeyStreamChunks ks (off + c.length) rest

theorem ctrApplyFrom_length (ks : Nat → Nat) (off : Nat) (l : List Nat) :
    (ctrApplyFrom ks off l).length = l.length := by
  induction l generalizing off with
  | nil => rfl
  | cons b rest ih => simp [ctrApplyFrom, ih]

theorem ctrApplyFrom_append (ks : Nat → Nat) (off : Nat) (a b : List Nat) :
    ctrApplyFrom ks off (a ++ b) =
      ctrApplyFrom ks off a ++ ctrApplyFrom ks (off + a.length) b := by
  induction a generalizing off with
  | nil => simp [ctrApplyFrom]
  | cons x rest ih =>
      have h2 : off + 1 + rest.length = off + (rest.length + 1) := by omega
      calc ctrApplyFrom ks off ((x :: rest) ++ b)
          = (x ^^^ ks off) :: ctrApplyFrom ks (off + 1) (rest ++ b) := rfl
        _ = (x ^^^ ks off) ::
              (ctrApplyFrom ks (off + 1) rest ++
                ctrApplyFrom ks (off + 1 + rest.length) b) := by rw [ih]
        _ = ctrApplyFrom ks off (x :: rest) ++
              ctrApplyFrom ks (off + (x :: rest).length) b := by
              rw [List.length_cons, h2]; rfl

/-- Applying the same keystream twice restores the input: CTR decryption
is CTR encryption. -/
theorem ctrApplyFrom_involutive (ks : Nat → Nat) (off : Nat) (l : List Nat) :
    ctrApplyFrom ks off (ctrApplyFrom ks off l) = l := by
  induction l generalizing off with
  | nil => rfl
  | cons b rest ih =>
      simp only [ctrApplyFrom, ih]
      rw [Nat.xor_assoc, Nat.xor_self, Nat.xor_zero]

/-- Any chunk decomposition processed by the stateful stream equals the
one-pass XOR of the concatenation. -/
theorem xorKeyStreamChunks_join (ks : Nat → Nat) (off : Nat) (cs : List (List Nat)) :
    xorKeyStreamChunks ks off cs = ctrApplyFrom ks off cs.flatten := by
  induction cs generalizing off with
  | nil => rfl
  | cons c rest ih => simp [xorKeyStreamChunks, List.flatten, ctrApplyFrom_append, ih]

/-- The chunked streaming loop equals the one-pass XOR. -/
theorem xorKeyStreamApply_eq (ks : Nat → Nat) (off : Nat) (input : List Nat) :
    XORKeyStreamApply ks off input = ctrApplyFrom ks off input := by
  induction off, input using XORKeyStreamApply.induct ks with
  | case1 off => simp [XORKeyStreamApply, ctrApplyFrom]
  | case2 off input h chunk ih =>
      rw [XORKeyStreamApply]
      simp only [dif_neg h]
      rw [ih]
      have h3 := ctrApplyFrom_append ks off (input.take streamBufferSize)
        (input.drop streamBufferSize)
      simp only [List.take_append_drop] at h3
      exact h3.symm

/-- Per-size loop of DeriveKeysFromMasterKeyEx (internal/cipher): key i of
length size i is HKDF output with info label key-i; a size of 0 (Go: <= 0)
or above 255 * 32 bytes is ErrInvalidLength. -/
def deriveSizesLoop (P : CryptoPrims) (masterKey salt : List Nat) :
    Nat → List Nat → Except FcError (List (List Nat))
  | _, [] => .ok []
  | i, n :: rest =>
    if n = 0 then .error .invalidLength
    else if n > 255 * 32 then .error .invalidLength
    else do
      let keys ← deriveSizesLoop P masterKey salt (i + 1) rest
      .ok (P.hkdf masterKey salt i n :: keys)

/-- DeriveKeysFromMasterKeyEx (internal/cipher): HKDF-derive one key per
requested size from the master key and the caller-supplied salt. -/
def DeriveKeysFromMasterKeyEx (P : CryptoPrims) (masterKey salt : List Nat)
    (keySizes : List Nat) : Except FcError (List (List Nat)) :=
  if masterKey.length = 0 then .error .invalidLength
  else if keySizes = [] then .ok []
  else deriveSizesLoop P masterKey salt 0 keySizes

/-- DeriveKeysFromMasterKey (internal/cipher): as DeriveKeysFromMasterKeyEx
but the 32-byte salt is freshly random; the salt drawn from the RNG is the
explicit argument here. -/
def DeriveKeysFromMasterKey (P : CryptoPrims) (masterKey salt : List Nat)
    (keySizes : List Nat) : Except FcError (List (List Nat)) :=
  if masterKey.length = 0 then .error .invalidLength
  else DeriveKeysFromMasterKeyEx P masterKey salt keySizes

/-- Bytes a TailReader withholding n bytes delivers through read calls
from a source that yields the byte list source: everything except the last
n bytes. Denotational contract of internal/io/tail_reader.go, proved
against the operational model of the append-buffer implementation below
(tailReaderS_contract). -/
def tailReaderDelivered (source : List Nat) (n : Nat) : List Nat :=
  source.take (source.length - n)

/-- Result of TailReader.Tail after the stream is drained: the last n
bytes, or io.ErrUnexpectedEOF when the source yielded fewer than n. -/
def tailReaderTail (source : List Nat) (n : Nat) : Except FcError (List Nat) :=
  if source.length < n then .error .unexpectedEnd
  else .ok (source.drop (source.length - n))

/-- AESCTRStreamEncryptAuthenticatedEx (internal/cipher/aes_ctr.go):
reject a reused authentication key, validate key and IV, then stream the
plaintext through the CTR XOR while feeding the IV and the produced
ciphertext to HMAC-SHA-256, and append the tag. The returned list is what
the ciphertext writer received. -/
def AESCTRStreamEncryptAuthenticatedEx (P : CryptoPrims)
    (key iv authKey plaintext : List Nat) : Except FcError (List Nat) :=
  if key = authKey then .error .authenticationKeyReused
  else match aesCTRCheck key iv with
  | some e => .error e
  | none =>
    let c := XORKeyStreamApply (P.ks key iv) 0 plaintext
    .ok (c ++ P.hmac authKey (iv ++ c))

/-- AESCTRStreamDecryptAuthenticatedEx (internal/cipher/aes_ctr.go):
reject a reused authentication key, validate key and IV, wrap the
ciphertext reader in a TailReader withholding the 32 tag bytes, stream the
withheld-tag prefix through the CTR XOR while feeding the IV and the
ciphertext to HMAC-SHA-256, then take the tag from the TailReader and
compare it (constant time in the source) to the recomputed MAC. -/
def AESCTRStreamDecryptAuthenticatedEx (P : CryptoPrims)
    (key iv authKey input : List Nat) : Except FcError (List Nat) :=
  if key = authKey then .error .authenticationKeyReused
  else match aesCTRCheck key iv with
  | some e => .error e
  | none =>
    let c := tailReaderDelivered input 32
    let pt := XORKeyStreamApply (P.ks key iv) 0 c
    match tailReaderTail input 32 with
    | .error e => .error e
    | .ok tag =>
      if tag = P.hmac authKey (iv ++ c) then .ok pt
      else .error .authenticationFailed

/-- AESGCMEncryptDirect (internal/cipher/aes_gcm.go) on the nil-nonce
path used by the key slots: validate the key size, then seal under a
freshly drawn 12-byte nonce (the nonce the RNG produced is the explicit
argument); the output is nonce, ciphertext and tag concatenated. -/
def AESGCMEncryptDirect (P : CryptoPrims) (key plaintext nonce : List Nat) :
    Except FcError (List Nat) :=
  match AESVerifyKeySize key with
  | some e => .error e
  | none => .ok (P.gcmSeal key nonce plaintext)

/-- AESGCMDecryptDirect (internal/cipher/aes_gcm.go) on the nil-nonce
path: validate the key size, then open the nonce-prefixed ciphertext. -/
def AESGCMDecryptDirect (P : CryptoPrims) (key ciphertext : List Nat) :
    Except FcError (List Nat) :=
  match AESVerifyKeySize key with
  | some e => .error e
  | none =>
    match P.gcmOpen key ciphertext with
    | some pt => .ok pt
    | none => .error .aeadOpenFailed

/-- ContainerKeySlot (internal/container/slots.go): algorithm, flags,
size and wrapped root key content. -/
structure ContainerKeySlot where
  slotKeyAlgorithm : Nat
  flags : Nat
  size : Nat
  slotContent : List Nat
  deriving DecidableEq, Repr

/-- NewContainerKeySlot (internal/container/slots.go): validate the
algorithm, require both keys nonempty, require the 16-byte slot key of
AES-GCM-128, seal the root key with AES-GCM under a fresh nonce (the
oracle argument), and reject content above 65535 bytes. -/
def NewContainerKeySlot (P : CryptoPrims) (alg flags : Nat)
    (rootKey slotKey nonce : List Nat) : Except FcError ContainerKeySlot :=
  if alg ≥ SlotKeyAlgEnd then .error .unsupportedSlotAlgo
  else if rootKey.length = 0 ∨ slotKey.length = 0 then .error .parameterMissing
  else if alg = SlotKeyAlgAESGCM128 then
    if slotKey.length ≠ 16 then .error .keySizeInvalid
    else do
      let content ← AESGCMEncryptDirect P slotKey rootKey nonce
      if content.length > 0xFFFF then .error .slotContentTooLarge
      else .ok ⟨alg, flags, content.length, content⟩
  else .error .unsupportedSlotAlgo

/-- ContainerKeySlot.Unseal (internal/container/slots.go): validate the
stored algorithm and the key, then AES-GCM-open the content. -/
def ContainerKeySlot.Unseal (P : CryptoPrims) (slot : ContainerKeySlot)
    (slotKey : List Nat) : Except FcError (List Nat) :=
  if slot.slotKeyAlgorithm ≥ SlotKeyAlgEnd then .error .unsupportedSlotAlgo
  else if slotKey.length = 0 then .error .parameterMissing
  else if slot.slotKeyAlgorithm = SlotKeyAlgAESGCM128 then
    AESGCMDecryptDirect P slotKey slot.slotContent
  else .error .unsupportedSlotAlgo

/-- Modelled from the spec: ContainerKeySlot.Destroy is called by
ContainerFile.RemoveKeySlotByIndex and exercised by the repository's
header tests, but its definition is not among the repository's files.
Spec section 4.3: destroy() sets flags |= 0x8000, zeroes size, sets
slot_key_algorithm to the invalid sentinel, securely wipes content (an
in-place overwrite with zero bytes, as WipeBufferSecure does, keeping the
buffer length). -/
def ContainerKeySlot.Destroy (slot : ContainerKeySlot) : ContainerKeySlot :=
  ⟨SlotKeyAlgEnd, slot.flags ||| 0x8000, 0,
    List.replicate slot.slotContent.length 0⟩

/-- ContainerFileHeader (internal/container/file_header.go). -/
structure ContainerFileHeader where
  versionMajor : Nat
  versionMinor : Nat
  flags : Nat
  algorithm : Nat
  slots : List ContainerKeySlot
  deriving DecidableEq, Repr

/-- Reads one big-endian uint16 from the byte stream, with Go's
binary.Read error behaviour on a bytes.Reader: io.EOF when no byte is
available, io.ErrUnexpectedEOF on a partial read. -/
def readU16BE : List Nat → Except FcError (Nat × List Nat)
  | a :: b :: rest => .ok (a * 256 + b, rest)
  | [] => .error .eofReached
  | [_] => .error .unexpectedEnd

/-- Reads one byte (bytes.Reader.ReadByte): io.EOF when exhausted. -/
def readU8 : List Nat → Except FcError (Nat × List Nat)
  | b :: rest => .ok (b, rest)
  | [] => .error .eofReached

/-- containerReadSlot (internal/container/file_header.go): read algorithm
(rejecting an out-of-range enumerant), flags, size, then exactly size
content bytes. -/
def containerReadSlot (data : List Nat) :
    Except FcError (ContainerKeySlot × List Nat) := do
  let (alg, d1) ← readU16BE data
  if alg ≥ SlotKeyAlgEnd then .error .unsupportedSlotAlgo
  else do
    let (flags, d2) ← readU16BE d1
    let (size, d3) ← readU16BE d2
    if size ≤ d3.length then
      .ok (⟨alg, flags, size, d3.take size⟩, d3.drop size)
    else .error (if d3.length = 0 then .eofReached else .unexpectedEnd)

/-- The slot-reading loop of ParseContainerFileHeader. -/
def parseSlots : Nat → List Nat → Except FcError (List ContainerKeySlot × List Nat)
  | 0, data => .ok ([], data)
  | n + 1, data => do
    let (slot, rest) ← containerReadSlot data
    let (slots, rest2) ← parseSlots n rest
    .ok (slot :: slots, rest2)

/-- ParseContainerFileHeader (internal/container/file_header.go): read
exactly 4096 bytes (a short stream surfaces Go's io.ReadFull error: io.EOF
when the stream is empty, io.ErrUnexpectedEOF otherwise), check the magic,
the version, the flags, the payload algorithm and the slot count, then
read the slots; the rest of the 4 KiB region is ignored. -/
def ParseContainerFileHeader (input : List Nat) :
    Except FcError ContainerFileHeader :=
  if input.length < 4096 then
    .error (if input.length = 0 then .eofReached else .unexpectedEnd)
  else
    if (input.take 4096).take 4 ≠ FileMagicNumber then .error .invalidFileHeader
    else do
      let (vMajor, r1) ← readU8 ((input.take 4096).drop 4)
      let (vMinor, r2) ← readU8 r1
      if vMajor ≠ 1 ∨ vMinor ≠ 0 then .error .unsupportedVersion
      else do
        let (flags, r3) ← readU16BE r2
        let (alg, r4) ← readU16BE r3
        if alg ≥ EncAlgEnd then .error .unsupportedEncAlgo
        else do
          let (nslots, r5) ← readU8 r4
          if nslots = 0 then .error .emptySlotContent
          else do
            let (slots, _) ← parseSlots nslots r5
            .ok ⟨vMajor, vMinor, flags, alg, slots⟩

/-- containerWriteSlot (internal/container/file_header.go): serialise
algorithm, flags and size big-endian, checking that the recorded size
matches the content length, then the content bytes. -/
def containerWriteSlot (slot : ContainerKeySlot) : Except FcError (List Nat) :=
  if slot.size ≠ slot.slotContent.length then .error .slotSizeMismatch
  else .ok (be16 slot.slotKeyAlgorithm ++ be16 slot.flags ++
    be16 slot.size ++ slot.slotContent)

/-- The slot-writing loop of WriteContainerFileHeader. Every slot of the
header is serialised: the source has no filtering of destroyed slots. -/
def writeSlots : List ContainerKeySlot → Except FcError (List Nat)
  | [] => .ok []
  | s :: rest => do
    let bytes ← containerWriteSlot s
    let restBytes ← writeSlots rest
    .ok (bytes ++ restBytes)

/-- WriteContainerFileHeader (internal/container/file_header.go): require
1 to 255 slots, serialise magic, version, flags, algorithm, slot count and
every slot of the header, reject a buffer above 4096 bytes, and zero-pad
to exactly 4096. -/
def WriteContainerFileHeader (header : ContainerFileHeader) :
    Except FcError (List Nat) := do
  let nslots := header.slots.length
  if nslots = 0 then .error .emptySlotContent
  else if nslots > 255 then .error .slotTooMuch
  else do
    let slotBytes ← writeSlots header.slots
    let buffer := FileMagicNumber ++ [header.versionMajor, header.versionMinor] ++
      be16 header.flags ++ be16 header.algorithm ++ [nslots % 256] ++ slotBytes
    if buffer.length > 4096 then .error .producedHeaderTooBig
    else .ok (buffer ++ List.replicate (4096 - buffer.length) 0)

/-- ContainerFile (pkg/container/file_wrapper.go): the backing file handle
(only its open/closed status matters to the embedded operations; its byte
content is passed to the operations explicitly), the header and the root
key. Go represents a sealed container by an empty or nil rootKey slice;
here the sealed state is rootKey = []. -/
structure ContainerFile where
  fileOpen : Bool
  header : ContainerFileHeader
  rootKey : List Nat
  deriving DecidableEq, Repr

/-- Offset of the payload region (containerCiphertextOffset). -/
def containerCiphertextOffset : Nat := 4096

/-- Size of the payload MAC key (authKeySize). -/
def authKeySize : Nat := 32

/-- NewContainerFileWithHandle (pkg/container/file_wrapper.go): validate
the algorithm and build an unsealed container with an empty slot list, a
version (1, 0) header and a fresh 32-byte random root key (the oracle
argument). -/
def NewContainerFileWithHandle (alg : Nat) (rootKey : List Nat) :
    Except FcError ContainerFile :=
  if alg ≥ EncAlgEnd then .error .unsupportedEncAlgo
  else .ok ⟨true, ⟨1, 0, 0, alg, []⟩, rootKey⟩

/-- OpenContainerFileWithHandle (pkg/container/file_wrapper.go): parse the
header from the file bytes; the container starts sealed. -/
def OpenContainerFileWithHandle (fileBytes : List Nat) :
    Except FcError ContainerFile := do
  let header ← ParseContainerFileHeader fileBytes
  .ok ⟨true, header, []⟩

/-- ContainerFile.findMatchingSlot (pkg/container/file_wrapper.go): walk
the slots in order, skip those of a different algorithm, and return the
decrypted root key and the index of the first slot whose Unseal attempt
returns a nil error. Go's gcm.Open returns a nil slice for an empty
plaintext, so the returned byte list is empty exactly when Go would return
rootKey == nil. The index is returned from position idx onwards. -/
def findMatchingSlotFrom (P : CryptoPrims) (alg : Nat) (slotKey : List Nat)
    (idx : Nat) : List ContainerKeySlot → Option (List Nat × Nat)
  | [] => none
  | slot :: rest =>
    if slot.slotKeyAlgorithm ≠ alg then
      findMatchingSlotFrom P alg slotKey (idx + 1) rest
    else match slot.Unseal P slotKey with
      | .ok rootKey => some (rootKey, idx)
      | .error _ => findMatchingSlotFrom P alg slotKey (idx + 1) rest

/-- ContainerFile.findMatchingSlot over the whole slot list; none models
Go's (nil, -1) result. -/
def ContainerFile.findMatchingSlot (P : CryptoPrims) (f : ContainerFile)
    (alg : Nat) (slotKey : List Nat) : Option (List Nat × Nat) :=
  findMatchingSlotFrom P alg slotKey 0 f.header.slots

/-- ContainerFile.Seal (pkg/container/file_wrapper.go): refuse when no
slots are configured, otherwise wipe and drop the root key. There is no
check that the container is unsealed. -/
def ContainerFile.Seal (f : ContainerFile) : Except FcError ContainerFile :=
  if f.header.slots.length = 0 then .error .noSlots
  else .ok { f with rootKey := [] }

/-- ContainerFile.Unseal (pkg/container/file_wrapper.go): refuse when the
root key is already present; otherwise store the result of
findMatchingSlot when that result is a non-nil byte slice, else report
RootKeyUnsealFailed. -/
def ContainerFile.Unseal (P : CryptoPrims) (f : ContainerFile) (alg : Nat)
    (slotKey : List Nat) : Except FcError ContainerFile :=
  if f.rootKey.length ≠ 0 then .error .rootKeyAlreadyUnsealed
  else match f.findMatchingSlot P alg slotKey with
    | some (rootKey, _) =>
      if rootKey ≠ [] then .ok { f with rootKey := rootKey }
      else .error .rootKeyUnsealFailed
    | none => .error .rootKeyUnsealFailed

/-- ContainerFile.AddKeySlot (pkg/container/file_wrapper.go): require the
root key present, reject a (algorithm, key) pair already matching a slot,
then wrap the root key into a new slot (the GCM nonce is the oracle
argument) and append it. -/
def ContainerFile.AddKeySlot (P : CryptoPrims) (f : ContainerFile) (alg : Nat)
    (slotKey nonce : List Nat) : Except FcError ContainerFile :=
  if f.rootKey.length = 0 then .error .rootKeySealed
  else match f.findMatchingSlot P alg slotKey with
    | some _ => .error .slotDuplicated
    | none => do
      let slot ← NewContainerKeySlot P alg 0 f.rootKey slotKey nonce
      .ok { f with header := { f.header with slots := f.header.slots ++ [slot] } }

/-- Outcome of ContainerFile.RemoveKeySlotByIndex, including the Go
runtime panic a negative index raises on the slice access. -/
inductive RemoveResult where
  | ok (f : ContainerFile)
  | err (e : FcError)
  | panics
  deriving DecidableEq, Repr

/-- ContainerFile.RemoveKeySlotByIndex (pkg/container/file_wrapper.go):
refuse when fewer than two slots exist or the index is at least the slot
count; otherwise Go evaluates Slots[index], which panics for a negative
index and destroys the slot in place for a valid one. -/
def ContainerFile.RemoveKeySlotByIndex (f : ContainerFile) (index : Int) :
    RemoveResult :=
  if f.header.slots.length < 2 then .err .slotInvalidRemove
  else if index ≥ (f.header.slots.length : Int) then .err .slotInvalidRemove
  else if index < 0 then .panics
  else .ok { f with header := { f.header with
    slots := f.header.slots.set index.toNat
      ((f.header.slots.getD index.toNat ⟨0, 0, 0, []⟩).Destroy) } }

/-- ContainerFile.WriteHeader (pkg/container/file_wrapper.go): seek to
offset 0 and serialise the header; the result is the 4096 bytes written
there. -/
def ContainerFile.WriteHeader (f : ContainerFile) : Except FcError (List Nat) :=
  WriteContainerFileHeader f.header

/-- ContainerFile.EncryptStream (pkg/container/file_wrapper.go): seek to
offset 4096, derive the payload and MAC keys from the root key under a
fresh salt, draw a fresh IV (salt and IV are the oracle arguments), write
salt then IV, then the authenticated CTR stream of the plaintext. The
result is the byte sequence written at offset 4096. -/
def ContainerFile.EncryptStream (P : CryptoPrims) (f : ContainerFile)
    (salt iv plaintext : List Nat) : Except FcError (List Nat) := do
  let keys ← DeriveKeysFromMasterKey P f.rootKey salt
    [encKeySize f.header.algorithm, authKeySize]
  let body ← AESCTRStreamEncryptAuthenticatedEx P (keys.getD 0 []) iv
    (keys.getD 1 []) plaintext
  .ok (salt ++ iv ++ body)

/-- ContainerFile.DecryptStream (pkg/container/file_wrapper.go): seek to
offset 4096, read the 32-byte salt and 16-byte IV (surfacing io.ReadFull
errors on a short region), re-derive the keys, then run the authenticated
CTR decryption over the rest. payload is the backing file content from
offset 4096 on. -/
def ContainerFile.DecryptStream (P : CryptoPrims) (f : ContainerFile)
    (payload : List Nat) : Except FcError (List Nat) :=
  if payload.length < 32 then
    .error (if payload.length = 0 then .eofReached else .unexpectedEnd)
  else
    let salt := payload.take 32
    let rest := payload.drop 32
    if rest.length < 16 then
      .error (if rest.length = 0 then .eofReached else .unexpectedEnd)
    else
      let iv := rest.take 16
      match DeriveKeysFromMasterKeyEx P f.rootKey salt
        [encKeySize f.header.algorithm, authKeySize] with
      | .error e => .error e
      | .ok keys =>
        AESCTRStreamDecryptAuthenticatedEx P (keys.getD 0 []) iv
          (keys.getD 1 []) (rest.drop 16)

/-- ContainerFile.Close (pkg/container/file_wrapper.go): close the backing
file handle when one is held. The source does nothing else: in particular
it does not touch the root key. -/
def ContainerFile.Close (f : ContainerFile) : ContainerFile :=
  { f with fileOpen := false }

/-! ## Header serialisation round-trip -/

theorem fcBind_ok {α β : Type} (a : α) (f : α → Except FcError β) :
    (Except.ok a : Except FcError α) >>= f = f a := rfl

theorem fcBind_err {α β : Type} (e : FcError) (f : α → Except FcError β) :
    (Except.error e : Except FcError α) >>= f = .error e := rfl

theorem readU16BE_be16 (v : Nat) (hv : v < 65536) (l : List Nat) :
    readU16BE (be16 v ++ l) = .ok (v, l) := by
  have h : v / 256 % 256 * 256 + v % 256 = v := by omega
  simp [be16, readU16BE, h]

/-- Parsing a serialised slot restores it and leaves the remainder. -/
theorem containerReadSlot_roundtrip (s : ContainerKeySlot) (rest : List Nat)
    (halg : s.slotKeyAlgorithm < SlotKeyAlgEnd) (hflags : s.flags < 65536)
    (hsize : s.size = s.slotContent.length) (hsz : s.size < 65536)
    (bs : List Nat) (hw : containerWriteSlot s = .ok bs) :
    containerReadSlot (bs ++ rest) = .ok (s, rest) := by
  obtain ⟨alg, flags, size, content⟩ := s
  simp only at halg hflags hsize hsz
  have halg1 : alg < 1 := halg
  unfold containerWriteSlot at hw
  rw [if_neg (by simp only; omega)] at hw
  have hbs : bs = be16 alg ++ be16 flags ++ be16 size ++ content :=
    (Except.ok.inj hw).symm
  subst hbs
  have hna : ¬ alg ≥ SlotKeyAlgEnd := by
    intro hc
    exact absurd halg (by omega)
  have hle : size ≤ (content ++ rest).length := by
    simp only [List.length_append]; omega
  simp only [containerReadSlot, List.append_assoc,
    readU16BE_be16 alg (by omega), readU16BE_be16 flags hflags,
    readU16BE_be16 size hsz, fcBind_ok, if_neg hna, if_pos hle,
    List.take_left' hsize.symm, List.drop_left' hsize.symm]

/-- Serialising a list of slots with matching sizes succeeds. -/
theorem writeSlots_ok (slots : List ContainerKeySlot)
    (h : ∀ s ∈ slots, s.size = s.slotContent.length) :
    ∃ bs, writeSlots slots = .ok bs := by
  induction slots with
  | nil => exact ⟨[], rfl⟩
  | cons s rest ih =>
      obtain ⟨bs, hbs⟩ := ih (fun t ht => h t (List.mem_cons_of_mem s ht))
      refine ⟨(be16 s.slotKeyAlgorithm ++ be16 s.flags ++ be16 s.size ++
        s.slotContent) ++ bs, ?_⟩
      have hs : containerWriteSlot s = .ok (be16 s.slotKeyAlgorithm ++
          be16 s.flags ++ be16 s.size ++ s.slotContent) := by
        unfold containerWriteSlot
        rw [if_neg (by have := h s (List.mem_cons_self s rest); omega)]
      simp only [writeSlots, hs, hbs, fcBind_ok]

/-- Parsing the concatenation of serialised well-formed slots restores
them and leaves the remainder untouched. -/
theorem parseSlots_roundtrip (slots : List ContainerKeySlot)
    (h : ∀ s ∈ slots, s.slotKeyAlgorithm < SlotKeyAlgEnd ∧ s.flags < 65536 ∧
      s.size = s.slotContent.length ∧ s.size < 65536)
    (bs rest : List Nat) (hw : writeSlots slots = .ok bs) :
    parseSlots slots.length (bs ++ rest) = .ok (slots, rest) := by
  induction slots generalizing bs with
  | nil =>
      have hbs : bs = [] := (Except.ok.inj hw).symm
      subst hbs
      simp [parseSlots]
  | cons s srest ih =>
      obtain ⟨h1, h2, h3, h4⟩ := h s (List.mem_cons_self s srest)
      unfold writeSlots at hw
      rcases hw1 : containerWriteSlot s with e | sb
      · rw [hw1, fcBind_err] at hw; exact absurd hw (by simp)
      rw [hw1, fcBind_ok] at hw
      rcases hw2 : writeSlots srest with e | sbs
      · rw [hw2, fcBind_err] at hw; exact absurd hw (by simp)
      rw [hw2, fcBind_ok] at hw
      have hbs : bs = sb ++ sbs := (Except.ok.inj hw).symm
      subst hbs
      have hms : (s :: srest).length = srest.length + 1 := rfl
      rw [hms]
      have hread := containerReadSlot_roundtrip s (sbs ++ rest) h1 h2 h3 h4 sb hw1
      have hih := ih (fun t ht => h t (List.mem_cons_of_mem s ht)) sbs hw2
      simp only [parseSlots, List.append_assoc, hread, fcBind_ok, hih]

/-- Writing a well-formed header produces a 4096-byte image whose parse
restores the header exactly. -/
theorem parse_write_roundtrip (h : ContainerFileHeader)
    (hv1 : h.versionMajor = 1) (hv2 : h.versionMinor = 0)
    (hflags : h.flags < 65536) (halg : h.algorithm < EncAlgEnd)
    (hne : h.slots ≠ []) (hcount : h.slots.length ≤ 255)
    (hslots : ∀ s ∈ h.slots, s.slotKeyAlgorithm < SlotKeyAlgEnd ∧
      s.flags < 65536 ∧ s.size = s.slotContent.length ∧ s.size < 65536)
    (bytes : List Nat) (hw : WriteContainerFileHeader h = .ok bytes) :
    ParseContainerFileHeader bytes = .ok h ∧ bytes.length = 4096 := by
  obtain ⟨vMaj, vMin, flags, alg, slots⟩ := h
  simp only at hv1 hv2 hflags halg hne hcount hslots
  subst hv1 hv2
  unfold WriteContainerFileHeader at hw
  dsimp only at hw
  rw [if_neg (by simp [List.length_eq_zero]; exact hne)] at hw
  rw [if_neg (by omega)] at hw
  obtain ⟨sbs, hsbs⟩ := writeSlots_ok slots (fun s hs => (hslots s hs).2.2.1)
  rw [hsbs, fcBind_ok] at hw
  set buffer := FileMagicNumber ++ [1, 0] ++ be16 flags ++ be16 alg ++
    [slots.length % 256] ++ sbs with hbuf
  by_cases hbig : buffer.length > 4096
  · rw [if_pos hbig] at hw; exact absurd hw (by simp)
  rw [if_neg hbig] at hw
  have hbytes : bytes = buffer ++ List.replicate (4096 - buffer.length) 0 :=
    (Except.ok.inj hw).symm
  subst hbytes
  have hlen : (buffer ++ List.replicate (4096 - buffer.length) 0).length = 4096 := by
    simp only [List.length_append, List.length_replicate]
    omega
  refine ⟨?_, hlen⟩
  have hns : slots.length % 256 = slots.length := Nat.mod_eq_of_lt (by omega)
  unfold ParseContainerFileHeader
  rw [if_neg (by omega)]
  rw [@List.take_of_length_le _ 4096
    (buffer ++ List.replicate (4096 - buffer.length) 0) (by omega)]
  have hshape : buffer ++ List.replicate (4096 - buffer.length) 0 =
      FileMagicNumber ++ ([1, 0] ++ (be16 flags ++ (be16 alg ++ ([slots.length % 256] ++
        (sbs ++ List.replicate (4096 - buffer.length) 0))))) := by
    rw [hbuf]; simp [List.append_assoc]
  rw [hshape]
  rw [List.take_left' (show FileMagicNumber.length = 4 from rfl)]
  rw [if_neg (by simp)]
  rw [List.drop_left' (show FileMagicNumber.length = 4 from rfl)]
  have halg2 : alg < 2 := halg
  have hnalg : ¬ alg ≥ EncAlgEnd := by
    intro hc
    have hc2 : 2 ≤ alg := hc
    omega
  have hnz : ¬ (slots.length % 256 = 0) := by
    rw [hns]
    simpa [List.length_eq_zero] using hne
  have hpar := parseSlots_roundtrip slots hslots sbs
    (List.replicate (4096 - buffer.length) 0) hsbs
  simp [List.cons_append, List.nil_append, readU8, fcBind_ok,
    readU16BE_be16 flags hflags, readU16BE_be16 alg (by omega),
    hnalg, hnz, hns, hpar]
  exact hne

/-- Key derivation for the payload: a pair of sizes within the limits
yields the two HKDF keys with info indices 0 and 1. -/
theorem deriveKeysEx_pair (P : CryptoPrims) (mk salt : List Nat) (a : Nat)
    (ha0 : a ≠ 0) (ha : a ≤ 8160) (hmk : mk ≠ []) :
    DeriveKeysFromMasterKeyEx P mk salt [a, authKeySize] =
      .ok [P.hkdf mk salt 0 a, P.hkdf mk salt 1 authKeySize] := by
  have hmk2 : ¬ mk.length = 0 := by simpa [List.length_eq_zero] using hmk
  have ha2 : ¬ a > 8160 := by omega
  simp [DeriveKeysFromMasterKeyEx, deriveSizesLoop, authKeySize, ha0, ha2,
    hmk2, fcBind_ok]

/-- DeriveKeysFromMasterKey with the oracle salt equals the Ex variant. -/
theorem deriveKeys_pair (P : CryptoPrims) (mk salt : List Nat) (a : Nat)
    (ha0 : a ≠ 0) (ha : a ≤ 8160) (hmk : mk ≠ []) :
    DeriveKeysFromMasterKey P mk salt [a, authKeySize] =
      .ok [P.hkdf mk salt 0 a, P.hkdf mk salt 1 authKeySize] := by
  have hmk2 : ¬ mk.length = 0 := by simpa [List.length_eq_zero] using hmk
  rw [DeriveKeysFromMasterKey, if_neg hmk2]
  exact deriveKeysEx_pair P mk salt a ha0 ha hmk

/-- The payload key size of a valid algorithm is 16 or 24 bytes. -/
theorem encKeySize_valid (alg : Nat) (h : alg < EncAlgEnd) :
    encKeySize alg = 16 ∨ encKeySize alg = 24 := by
  have h2 : alg < 2 := h
  match alg, h2 with
  | 0, _ => left; rfl
  | 1, _ => right; rfl

/-- The authenticated CTR encryption stream on valid parameters: CTR
ciphertext followed by the HMAC tag over IV and ciphertext. -/
theorem aesctrEncrypt_ok (P : CryptoPrims) (key iv authKey pt : List Nat)
    (hkey : key.length = 16 ∨ key.length = 24 ∨ key.length = 32)
    (hne : key ≠ authKey) (hiv : iv.length = 16) :
    AESCTRStreamEncryptAuthenticatedEx P key iv authKey pt =
      .ok (ctrApplyFrom (P.ks key iv) 0 pt ++
        P.hmac authKey (iv ++ ctrApplyFrom (P.ks key iv) 0 pt)) := by
  have hkne : key ≠ [] := by
    intro hc; subst hc; simp at hkey
  have hcheck : aesCTRCheck key iv = none := by
    simp [aesCTRCheck, AESVerifyKeySize, hkne, hkey, hiv]
  rw [AESCTRStreamEncryptAuthenticatedEx, if_neg hne, hcheck,
    xorKeyStreamApply_eq]

theorem flipBit_ne (b j : Nat) : flipBit b j ≠ b := by
  intro hc
  unfold flipBit at hc
  have h2 := congrArg (fun t => b ^^^ t) hc
  simp only [← Nat.xor_assoc, Nat.xor_self, Nat.zero_xor] at h2
  exact absurd h2 (by have := Nat.two_pow_pos j; omega)

theorem flipByteAt_length (l : List Nat) (k j : Nat) :
    (flipByteAt l k j).length = l.length := by
  simp [flipByteAt]

theorem flipByteAt_append_left (a b : List Nat) (k j : Nat) (hk : k < a.length) :
    flipByteAt (a ++ b) k j = flipByteAt a k j ++ b := by
  unfold flipByteAt
  rw [List.set_append, if_pos hk]
  have hg : (a ++ b).getD k 0 = a.getD k 0 := by
    simp only [List.getD_eq_getElem?_getD, List.getElem?_append, if_pos hk]
  rw [hg]

theorem flipByteAt_append_right (a b : List Nat) (k j : Nat)
    (hk : a.length ≤ k) :
    flipByteAt (a ++ b) k j = a ++ flipByteAt b (k - a.length) j := by
  unfold flipByteAt
  rw [List.set_append, if_neg (by omega)]
  have hg : (a ++ b).getD k 0 = b.getD (k - a.length) 0 := by
    simp only [List.getD_eq_getElem?_getD, List.getElem?_append_right hk]
  rw [hg]

theorem flipByteAt_ne (l : List Nat) (k j : Nat) (hk : k < l.length) :
    flipByteAt l k j ≠ l := by
  intro hc
  have h2 := congrArg (fun t => t.getD k 0) hc
  simp only [flipByteAt, List.getD_eq_getElem?_getD,
    List.getElem?_set_self (by omega : k < l.length)] at h2
  exact flipBit_ne (l.getD k 0) j (by
    simpa [List.getD_eq_getElem?_getD] using h2)

/-- The authenticated CTR decryption stream on valid parameters reduces to
the tag comparison over the tail-split input. -/
theorem aesctrDecrypt_eval (P : CryptoPrims) (key iv authKey input : List Nat)
    (hkey : key.length = 16 ∨ key.length = 24 ∨ key.length = 32)
    (hne : key ≠ authKey) (hiv : iv.length = 16)
    (hlen32 : 32 ≤ input.length) :
    AESCTRStreamDecryptAuthenticatedEx P key iv authKey input =
      if input.drop (input.length - 32) =
          P.hmac authKey (iv ++ input.take (input.length - 32))
      then .ok (ctrApplyFrom (P.ks key iv) 0 (input.take (input.length - 32)))
      else .error .authenticationFailed := by
  have hkne : key ≠ [] := by
    intro hc; subst hc; simp at hkey
  have hcheck : aesCTRCheck key iv = none := by
    simp [aesCTRCheck, AESVerifyKeySize, hkne, hkey, hiv]
  have htail : tailReaderTail input 32 = .ok (input.drop (input.length - 32)) := by
    rw [tailReaderTail, if_neg (by omega)]
  rw [AESCTRStreamDecryptAuthenticatedEx, if_neg hne, hcheck]
  simp only [htail, tailReaderDelivered, xorKeyStreamApply_eq]

/-- DecryptStream on a payload shaped salt, IV, rest: reads the salt and
the IV, then derives keys and runs the authenticated decryption. -/
theorem decryptStream_shape (P : CryptoPrims) (f : ContainerFile)
    (salt iv X : List Nat) (hsalt : salt.length = 32) (hiv : iv.length = 16) :
    ContainerFile.DecryptStream P f (salt ++ (iv ++ X)) =
      match DeriveKeysFromMasterKeyEx P f.rootKey salt
        [encKeySize f.header.algorithm, authKeySize] with
      | .error e => .error e
      | .ok keys =>
        AESCTRStreamDecryptAuthenticatedEx P (keys.getD 0 []) iv
          (keys.getD 1 []) X := by
  have hlen : (salt ++ (iv ++ X)).length = 48 + X.length := by
    simp [List.length_append]; omega
  rw [ContainerFile.DecryptStream]
  rw [if_neg (by omega)]
  rw [List.take_left' hsalt, List.drop_left' hsalt]
  rw [if_neg (by simp [List.length_append]; omega)]
  rw [List.take_left' hiv, List.drop_left' hiv]

/-- ParseContainerFileHeader reads exactly the first 4096 bytes: anything
beyond them does not change the result. -/
theorem parseHeader_take4096 (input : List Nat) (h : 4096 ≤ input.length) :
    ParseContainerFileHeader input = ParseContainerFileHeader (input.take 4096) := by
  have h1 : ¬ input.length < 4096 := by omega
  have h2 : ¬ (input.take 4096).length < 4096 := by
    simp only [List.length_take]; omega
  simp only [ParseContainerFileHeader, if_neg h1, if_neg h2, List.take_take]
  norm_num

/-- Concrete crypto primitives for the witnesses: zero keystream, a
constant 32-byte MAC, HKDF yielding n copies of the key index plus one,
and an AEAD that stores the nonce and plaintext with a 16-byte filler tag
and recovers the plaintext on open. -/
def wPrims : CryptoPrims :=
  ⟨fun _ _ _ => 0,
    fun _ _ => List.replicate 32 7,
    fun _ _ i n => List.replicate n (i + 1),
    fun _ nonce pt => nonce ++ pt ++ List.replicate 16 0,
    fun _ cbytes =>
      if 28 ≤ cbytes.length then
        some ((cbytes.drop 12).take (cbytes.length - 28))
      else none⟩

/-! ## Claim theorems -/

/-- Claim C3: EncryptStream writes the payload region at file offset 4096
with exactly this layout: the fresh 32-byte HKDF salt at bytes 0 to 31,
the fresh 16-byte IV at bytes 32 to 47, the CTR ciphertext of the same
length as the plaintext from byte 48 on, and a final 32-byte HMAC-SHA-256
tag computed over iv and ciphertext concatenated. The salt and IV are the
values the RNG produced; the hypotheses state the HKDF and HMAC output
lengths the trusted crypto library guarantees. -/
theorem encryptStream_payload_layout (P : CryptoPrims) (f : ContainerFile)
    (salt iv plaintext : List Nat)
    (hroot : f.rootKey ≠ []) (halg : f.header.algorithm < EncAlgEnd)
    (hsalt : salt.length = 32) (hiv : iv.length = 16)
    (hk0 : (P.hkdf f.rootKey salt 0 (encKeySize f.header.algorithm)).length =
      encKeySize f.header.algorithm)
    (hk1 : (P.hkdf f.rootKey salt 1 authKeySize).length = authKeySize)
    (htag : (P.hmac (P.hkdf f.rootKey salt 1 authKeySize)
      (iv ++ ctrApplyFrom
        (P.ks (P.hkdf f.rootKey salt 0 (encKeySize f.header.algorithm)) iv)
        0 plaintext)).length = 32) :
    ∃ c tag,
      ContainerFile.EncryptStream P f salt iv plaintext =
        .ok (salt ++ (iv ++ (c ++ tag))) ∧
      c = ctrApplyFrom
        (P.ks (P.hkdf f.rootKey salt 0 (encKeySize f.header.algorithm)) iv)
        0 plaintext ∧
      c.length = plaintext.length ∧
      tag = P.hmac (P.hkdf f.rootKey salt 1 authKeySize) (iv ++ c) ∧
      tag.length = 32 ∧
      (salt ++ (iv ++ (c ++ tag))).take 32 = salt ∧
      ((salt ++ (iv ++ (c ++ tag))).drop 32).take 16 = iv ∧
      ((salt ++ (iv ++ (c ++ tag))).drop 48).take plaintext.length = c ∧
      ((salt ++ (iv ++ (c ++ tag))).drop 48).drop plaintext.length = tag ∧
      (salt ++ (iv ++ (c ++ tag))).length = plaintext.length + 80 := by
  have hsz := encKeySize_valid f.header.algorithm halg
  have ha0 : encKeySize f.header.algorithm ≠ 0 := by
    rcases hsz with h | h <;> omega
  have ha1 : encKeySize f.header.algorithm ≤ 8160 := by
    rcases hsz with h | h <;> omega
  have hkeys := deriveKeys_pair P f.rootKey salt (encKeySize f.header.algorithm)
    ha0 ha1 hroot
  have hak : authKeySize = 32 := rfl
  have hkneq : P.hkdf f.rootKey salt 0 (encKeySize f.header.algorithm) ≠
      P.hkdf f.rootKey salt 1 authKeySize := by
    intro hc
    have hlc := congrArg List.length hc
    rw [hk0, hk1, hak] at hlc
    rcases hsz with h | h <;> omega
  have hbody := aesctrEncrypt_ok P
    (P.hkdf f.rootKey salt 0 (encKeySize f.header.algorithm)) iv
    (P.hkdf f.rootKey salt 1 authKeySize) plaintext
    (by rcases hsz with h | h <;> rw [hk0, h] <;> simp) hkneq hiv
  refine ⟨ctrApplyFrom
      (P.ks (P.hkdf f.rootKey salt 0 (encKeySize f.header.algorithm)) iv)
      0 plaintext,
    P.hmac (P.hkdf f.rootKey salt 1 authKeySize)
      (iv ++ ctrApplyFrom
        (P.ks (P.hkdf f.rootKey salt 0 (encKeySize f.header.algorithm)) iv)
        0 plaintext),
    ?_, rfl, ctrApplyFrom_length _ _ _, rfl, htag, ?_, ?_, ?_, ?_, ?_⟩
  · simp only [ContainerFile.EncryptStream, hkeys, fcBind_ok,
      List.getD_cons_zero, List.getD_cons_succ, List.append_assoc]
    rw [hbody, fcBind_ok]
  · exact List.take_left' hsalt
  · rw [List.drop_left' hsalt, List.take_left' hiv]
  · rw [show (48 : Nat) = 32 + 16 from rfl, ← List.drop_drop,
      List.drop_left' hsalt, List.drop_left' hiv,
      List.take_left' (ctrApplyFrom_length _ _ _)]
  · rw [show (48 : Nat) = 32 + 16 from rfl, ← List.drop_drop,
      List.drop_left' hsalt, List.drop_left' hiv,
      List.drop_left' (ctrApplyFrom_length _ _ _)]
  · simp only [List.length_append, ctrApplyFrom_length, htag]
    omega

/-- Claim C2: on a validly tagged payload region — salt, IV, ciphertext c
and trailing tag equal to HMAC-SHA-256 of IV and c under the derived MAC
key — flipping any single bit (bit j of byte k of the ciphertext-and-tag
region) makes DecryptStream return AuthenticationFailed: the stored tag
is compared against the recomputed HMAC of iv and ciphertext, and any
mismatch yields AuthenticationFailed. A flip inside the tag mismatches
unconditionally; for a flip inside the ciphertext the hypothesis hcoll
states that the recomputed HMAC differs — the collision-freedom that
HMAC-SHA-256 provides and that an abstract MAC cannot prove. -/
theorem decryptStream_bitflip_authFailed (P : CryptoPrims)
    (f : ContainerFile) (salt iv c : List Nat) (k j : Nat)
    (hroot : f.rootKey ≠ []) (halg : f.header.algorithm < EncAlgEnd)
    (hsalt : salt.length = 32) (hiv : iv.length = 16)
    (hk0 : (P.hkdf f.rootKey salt 0 (encKeySize f.header.algorithm)).length =
      encKeySize f.header.algorithm)
    (hk1 : (P.hkdf f.rootKey salt 1 authKeySize).length = authKeySize)
    (htag : (P.hmac (P.hkdf f.rootKey salt 1 authKeySize) (iv ++ c)).length = 32)
    (hk : k < c.length + 32) (hj : j < 8)
    (hcoll : k < c.length →
      P.hmac (P.hkdf f.rootKey salt 1 authKeySize) (iv ++ flipByteAt c k j) ≠
        P.hmac (P.hkdf f.rootKey salt 1 authKeySize) (iv ++ c)) :
    ContainerFile.DecryptStream P f
      (salt ++ (iv ++ flipByteAt
        (c ++ P.hmac (P.hkdf f.rootKey salt 1 authKeySize) (iv ++ c)) k j)) =
      .error .authenticationFailed := by
  have hsz := encKeySize_valid f.header.algorithm halg
  have ha0 : encKeySize f.header.algorithm ≠ 0 := by
    rcases hsz with h | h <;> omega
  have ha1 : encKeySize f.header.algorithm ≤ 8160 := by
    rcases hsz with h | h <;> omega
  have hkeys := deriveKeysEx_pair P f.rootKey salt
    (encKeySize f.header.algorithm) ha0 ha1 hroot
  have hak : authKeySize = 32 := rfl
  have hkneq : P.hkdf f.rootKey salt 0 (encKeySize f.header.algorithm) ≠
      P.hkdf f.rootKey salt 1 authKeySize := by
    intro hc2
    have hlc := congrArg List.length hc2
    rw [hk0, hk1, hak] at hlc
    rcases hsz with h | h <;> omega
  have hkey : (P.hkdf f.rootKey salt 0 (encKeySize f.header.algorithm)).length
        = 16 ∨
      (P.hkdf f.rootKey salt 0 (encKeySize f.header.algorithm)).length = 24 ∨
      (P.hkdf f.rootKey salt 0 (encKeySize f.header.algorithm)).length = 32 := by
    rcases hsz with h | h
    · left; rw [hk0, h]
    · right; left; rw [hk0, h]
  rw [decryptStream_shape P f salt iv _ hsalt hiv, hkeys]
  set tag := P.hmac (P.hkdf f.rootKey salt 1 authKeySize) (iv ++ c) with htagdef
  have hX : (flipByteAt (c ++ tag) k j).length = c.length + 32 := by
    rw [flipByteAt_length, List.length_append, htag]
  simp only [List.getD_cons_zero, List.getD_cons_succ]
  rw [aesctrDecrypt_eval P _ iv _ _ hkey hkneq hiv (by omega)]
  by_cases hkc : k < c.length
  · rw [flipByteAt_append_left c tag k j hkc]
    have hlenc : (flipByteAt c k j).length = c.length := flipByteAt_length c k j
    have hdrop : (flipByteAt c k j ++ tag).length - 32 = c.length := by
      simp only [List.length_append, hlenc, htagdef, htag]; omega
    rw [hdrop, List.take_left' hlenc, List.drop_left' hlenc]
    rw [if_neg (fun hc2 => hcoll hkc (by rw [← hc2]))]
  · rw [flipByteAt_append_right c tag k j (by omega)]
    have hlent : (flipByteAt tag (k - c.length) j).length = 32 := by
      rw [flipByteAt_length, htagdef, htag]
    have hdrop : (c ++ flipByteAt tag (k - c.length) j).length - 32 = c.length := by
      simp only [List.length_append, hlent]; omega
    rw [hdrop, List.take_left, List.drop_left]
    rw [if_neg ?_]
    rw [← htagdef]
    exact flipByteAt_ne tag (k - c.length) j (by rw [htagdef, htag]; omega)

/-- Witness for C3 at a concrete input: the layout theorem applied to the
witness primitives, a fresh container with a 32-byte root key, a concrete
salt, IV and three-byte plaintext. -/
theorem encryptStream_payload_layout_witness :
    ∃ c tag, ContainerFile.EncryptStream wPrims
      ⟨true, ⟨1, 0, 0, 0, []⟩, List.replicate 32 9⟩
      (List.replicate 32 5) (List.replicate 16 6) [1, 2, 3] =
        .ok (List.replicate 32 5 ++ (List.replicate 16 6 ++ (c ++ tag))) ∧
      c.length = 3 ∧ tag.length = 32 := by
  obtain ⟨c, tag, h1, _, h3, _, h5, _⟩ :=
    encryptStream_payload_layout wPrims
      ⟨true, ⟨1, 0, 0, 0, []⟩, List.replicate 32 9⟩
      (List.replicate 32 5) (List.replicate 16 6) [1, 2, 3]
      (by decide) (by decide) (by decide) (by decide) (by decide) (by decide)
      (by decide)
  exact ⟨c, tag, h1, h3.trans rfl, h5⟩

/-- Witness for C2 at a concrete input: flipping bit 0 of the first tag
byte of a validly tagged one-byte payload yields AuthenticationFailed. -/
theorem decryptStream_bitflip_authFailed_witness :
    ContainerFile.DecryptStream wPrims
      ⟨true, ⟨1, 0, 0, 0, []⟩, List.replicate 32 9⟩
      (List.replicate 32 5 ++ (List.replicate 16 6 ++ flipByteAt
        ([1] ++ wPrims.hmac
          (wPrims.hkdf (List.replicate 32 9) (List.replicate 32 5) 1 authKeySize)
          (List.replicate 16 6 ++ [1])) 1 0)) =
      .error .authenticationFailed :=
  decryptStream_bitflip_authFailed wPrims
    ⟨true, ⟨1, 0, 0, 0, []⟩, List.replicate 32 9⟩
    (List.replicate 32 5) (List.replicate 16 6) [1] 1 0
    (by decide) (by decide) (by decide) (by decide) (by decide) (by decide)
    (by decide) (by decide) (by decide) (fun h => absurd h (by decide))

/-- Claim C10: Seal() returns NoSlots exactly when the container's slot
list is empty; in every other state it succeeds — also when the container
is already sealed, since there is no already-sealed check — and afterwards
the root key is absent. -/
theorem seal_noSlots_iff (f : ContainerFile) :
    (ContainerFile.Seal f = .error .noSlots ↔ f.header.slots = []) ∧
    (f.header.slots ≠ [] →
      ContainerFile.Seal f = .ok { f with rootKey := [] }) := by
  unfold ContainerFile.Seal
  by_cases h : f.header.slots = [] <;>
    simp [h, List.length_eq_zero]

/-- Counterexample to claim C9 as stated: a container holding the root
key byte 5 and an open handle; Close releases the handle but leaves the
root key buffer untouched instead of zeroing it. -/
theorem close_does_not_wipe_rootKey :
    (ContainerFile.Close ⟨true, ⟨1, 0, 0, 0, []⟩, [5]⟩).rootKey ≠
        List.replicate ([5] : List Nat).length 0 ∧
      (ContainerFile.Close ⟨true, ⟨1, 0, 0, 0, []⟩, [5]⟩).fileOpen = false := by
  decide

/-- Claim C9, amended: Close() releases the backing file handle and
changes nothing else; in particular the root key, when present, is not
wiped. -/
theorem close_releases_handle_keeps_rootKey (f : ContainerFile) :
    (ContainerFile.Close f).fileOpen = false ∧
      (ContainerFile.Close f).rootKey = f.rootKey ∧
      (ContainerFile.Close f).header = f.header := by
  simp [ContainerFile.Close]

/-- Counterexample to claim C8 as stated: with two slots present, the
integer index -1 is not the index of a slot, yet the call panics on the
negative slice index instead of returning InvalidRemove. -/
theorem removeKeySlot_negativeIndex_panics :
    ContainerFile.RemoveKeySlotByIndex
        ⟨true, ⟨1, 0, 0, 0, [⟨0, 0, 1, [1]⟩, ⟨0, 0, 1, [2]⟩]⟩, []⟩ (-1) =
      RemoveResult.panics ∧
    ContainerFile.RemoveKeySlotByIndex
        ⟨true, ⟨1, 0, 0, 0, [⟨0, 0, 1, [1]⟩, ⟨0, 0, 1, [2]⟩]⟩, []⟩ (-1) ≠
      RemoveResult.err .slotInvalidRemove := by
  decide

/-- Claim C8, amended: RemoveKeySlotByIndex(i) returns InvalidRemove and
changes nothing when the container holds fewer than two slots or when
i ≥ slot_count; when slot_count ≥ 2 and 0 ≤ i < slot_count it destroys the
target slot in place, keeping the tombstone in memory with the slot count
unchanged and every other slot untouched; a negative i with at least two
slots panics (Go slice index out of range) instead of returning
InvalidRemove. -/
theorem removeKeySlot_characterization (f : ContainerFile) (i : Int) :
    (f.header.slots.length < 2 →
      ContainerFile.RemoveKeySlotByIndex f i = .err .slotInvalidRemove) ∧
    (2 ≤ f.header.slots.length → (f.header.slots.length : Int) ≤ i →
      ContainerFile.RemoveKeySlotByIndex f i = .err .slotInvalidRemove) ∧
    (2 ≤ f.header.slots.length → i < 0 →
      ContainerFile.RemoveKeySlotByIndex f i = .panics) ∧
    (2 ≤ f.header.slots.length → 0 ≤ i → i < (f.header.slots.length : Int) →
      ∃ g, ContainerFile.RemoveKeySlotByIndex f i = .ok g ∧
        g.rootKey = f.rootKey ∧ g.fileOpen = f.fileOpen ∧
        g.header.slots.length = f.header.slots.length ∧
        g.header.slots.getD i.toNat ⟨0, 0, 0, []⟩ =
          (f.header.slots.getD i.toNat ⟨0, 0, 0, []⟩).Destroy ∧
        ∀ j, j ≠ i.toNat →
          g.header.slots.getD j ⟨0, 0, 0, []⟩ =
            f.header.slots.getD j ⟨0, 0, 0, []⟩) := by
  refine ⟨fun h1 => ?_, fun h2 h3 => ?_, fun h2 h4 => ?_, fun h2 h5 h6 => ?_⟩
  · simp [ContainerFile.RemoveKeySlotByIndex, h1]
  · have : ¬ f.header.slots.length < 2 := by omega
    simp [ContainerFile.RemoveKeySlotByIndex, this, h3]
  · have hn2 : ¬ f.header.slots.length < 2 := by omega
    have hn3 : ¬ (f.header.slots.length : Int) ≤ i := by omega
    simp only [ContainerFile.RemoveKeySlotByIndex, if_neg hn2]
    rw [if_neg (by omega), if_pos h4]
  · have hn2 : ¬ f.header.slots.length < 2 := by omega
    have hn4 : ¬ i < 0 := by omega
    have hlt : i.toNat < f.header.slots.length := by omega
    refine ⟨{ f with header := { f.header with
      slots := f.header.slots.set i.toNat
        ((f.header.slots.getD i.toNat ⟨0, 0, 0, []⟩).Destroy) } },
      ?_, rfl, rfl, ?_, ?_, ?_⟩
    · simp only [ContainerFile.RemoveKeySlotByIndex, if_neg hn2]
      rw [if_neg (by omega), if_neg hn4]
    · simp [List.length_set]
    · simp [List.getD_eq_getElem?_getD, List.getElem?_set_self hlt]
    · intro j hj
      simp [List.getD_eq_getElem?_getD, List.getElem?_set_ne (Ne.symm hj)]

/-- Default slot used with List.getD; positions read in the theorems are
always in range. -/
def dfltSlot : ContainerKeySlot := ⟨0, 0, 0, []⟩

theorem exceptIsOk_ok {ε α : Type} (a : α) :
    (Except.ok a : Except ε α).isOk = true := rfl

theorem exceptIsOk_error {ε α : Type} (e : ε) :
    (Except.error e : Except ε α).isOk = false := rfl

theorem findFrom_cons_skip (P : CryptoPrims) (alg : Nat) (key : List Nat)
    (idx : Nat) (s : ContainerKeySlot) (rest : List ContainerKeySlot)
    (hm : s.slotKeyAlgorithm ≠ alg) :
    findMatchingSlotFrom P alg key idx (s :: rest) =
      findMatchingSlotFrom P alg key (idx + 1) rest := by
  simp [findMatchingSlotFrom, hm]

theorem findFrom_cons_ok (P : CryptoPrims) (alg : Nat) (key : List Nat)
    (idx : Nat) (s : ContainerKeySlot) (rest : List ContainerKeySlot)
    (r : List Nat) (hm : s.slotKeyAlgorithm = alg)
    (hu : s.Unseal P key = .ok r) :
    findMatchingSlotFrom P alg key idx (s :: rest) = some (r, idx) := by
  simp [findMatchingSlotFrom, hm, hu]

theorem findFrom_cons_err (P : CryptoPrims) (alg : Nat) (key : List Nat)
    (idx : Nat) (s : ContainerKeySlot) (rest : List ContainerKeySlot)
    (e : FcError) (hm : s.slotKeyAlgorithm = alg)
    (hu : s.Unseal P key = .error e) :
    findMatchingSlotFrom P alg key idx (s :: rest) =
      findMatchingSlotFrom P alg key (idx + 1) rest := by
  simp [findMatchingSlotFrom, hm, hu]

theorem findMatchingSlotFrom_none_iff (P : CryptoPrims) (alg : Nat)
    (key : List Nat) (idx : Nat) (slots : List ContainerKeySlot) :
    findMatchingSlotFrom P alg key idx slots = none ↔
      ∀ slot ∈ slots, slot.slotKeyAlgorithm = alg →
        (slot.Unseal P key).isOk = false := by
  induction slots generalizing idx with
  | nil => simp [findMatchingSlotFrom]
  | cons s rest ih =>
      by_cases hm : s.slotKeyAlgorithm = alg
      · rcases hu : s.Unseal P key with e | r
        · rw [findFrom_cons_err P alg key idx s rest e hm hu, ih]
          constructor
          · intro h slot hmem halg
            rcases List.mem_cons.mp hmem with rfl | hmem2
            · rw [hu]; exact exceptIsOk_error e
            · exact h slot hmem2 halg
          · intro h slot hmem halg
            exact h slot (List.mem_cons_of_mem s hmem) halg
        · rw [findFrom_cons_ok P alg key idx s rest r hm hu]
          constructor
          · intro h; exact absurd h (by simp)
          · intro h
            have h2 := h s (List.mem_cons_self s rest) hm
            rw [hu, exceptIsOk_ok] at h2
            exact absurd h2 (by simp)
      · rw [findFrom_cons_skip P alg key idx s rest hm, ih]
        constructor
        · intro h slot hmem halg
          rcases List.mem_cons.mp hmem with rfl | hmem2
          · exact absurd halg hm
          · exact h slot hmem2 halg
        · intro h slot hmem halg
          exact h slot (List.mem_cons_of_mem s hmem) halg

theorem findMatchingSlotFrom_some_spec (P : CryptoPrims) (alg : Nat)
    (key : List Nat) (slots : List ContainerKeySlot) (idx : Nat)
    (r : List Nat) (i : Nat)
    (h : findMatchingSlotFrom P alg key idx slots = some (r, i)) :
    idx ≤ i ∧ i - idx < slots.length ∧
      (slots.getD (i - idx) dfltSlot).slotKeyAlgorithm = alg ∧
      (slots.getD (i - idx) dfltSlot).Unseal P key = .ok r ∧
      ∀ t, t < i - idx → (slots.getD t dfltSlot).slotKeyAlgorithm = alg →
        ((slots.getD t dfltSlot).Unseal P key).isOk = false := by
  induction slots generalizing idx with
  | nil => simp [findMatchingSlotFrom] at h
  | cons s rest ih =>
      have hcons0 : (s :: rest).getD 0 dfltSlot = s := rfl
      have hconsS : ∀ t, (s :: rest).getD (t + 1) dfltSlot = rest.getD t dfltSlot := by
        intro t; rfl
      by_cases hm : s.slotKeyAlgorithm = alg
      · rcases hu : s.Unseal P key with e | r2
        · rw [findFrom_cons_err P alg key idx s rest e hm hu] at h
          obtain ⟨h1, h2, h3, h4, h5⟩ := ih (idx + 1) h
          have hgt : 1 ≤ i - idx := by omega
          rcases Nat.exists_eq_add_of_le hgt with ⟨k, hk⟩
          have hk2 : i - idx = k + 1 := by omega
          have heq : k = i - (idx + 1) := by omega
          refine ⟨by omega, by simp only [List.length_cons]; omega, ?_, ?_, ?_⟩
          · rw [hk2, hconsS k, heq]; exact h3
          · rw [hk2, hconsS k, heq]; exact h4
          · intro t ht halg
            match t with
            | 0 =>
                rw [hcons0] at halg ⊢
                rw [hu]; exact exceptIsOk_error e
            | t + 1 =>
                rw [hconsS t] at halg ⊢
                exact h5 t (by omega) halg
        · rw [findFrom_cons_ok P alg key idx s rest r2 hm hu] at h
          have h6 := Option.some.inj h
          have hr : r2 = r := congrArg Prod.fst h6
          have hi : idx = i := congrArg Prod.snd h6
          subst hr hi
          have hz : idx - idx = 0 := by omega
          refine ⟨le_refl idx, ?_, ?_, ?_, ?_⟩
          · rw [hz]; simp
          · rw [hz, hcons0]; exact hm
          · rw [hz, hcons0]; exact hu
          · intro t ht; rw [hz] at ht; omega
      · rw [findFrom_cons_skip P alg key idx s rest hm] at h
        obtain ⟨h1, h2, h3, h4, h5⟩ := ih (idx + 1) h
        have hgt : 1 ≤ i - idx := by omega
        rcases Nat.exists_eq_add_of_le hgt with ⟨k, hk⟩
        have hk2 : i - idx = k + 1 := by omega
        have heq : k = i - (idx + 1) := by omega
        refine ⟨by omega, by simp only [List.length_cons]; omega, ?_, ?_, ?_⟩
        · rw [hk2, hconsS k, heq]; exact h3
        · rw [hk2, hconsS k, heq]; exact h4
        · intro t ht halg
          match t with
          | 0 =>
              rw [hcons0] at halg
              exact absurd halg hm
          | t + 1 =>
              rw [hconsS t] at halg ⊢
              exact h5 t (by omega) halg

/-- Concrete primitives for the C7 counterexample: the AEAD opens the
one-byte slot content 9 to the empty plaintext, the real behaviour of
AES-GCM on a sealed empty message (Go's gcm.Open then returns a nil
slice). -/
def c7Prims : CryptoPrims :=
  ⟨fun _ _ _ => 0, fun _ _ => [], fun _ _ _ _ => [],
    fun _ nonce pt => nonce ++ pt,
    fun _ c => if c = [9] then some [] else none⟩

/-- Concrete sealed container for the C7 counterexample: one AES-GCM-128
slot whose content decrypts (successfully) to the empty byte string. -/
def c7File : ContainerFile := ⟨true, ⟨1, 0, 0, 0, [⟨0, 0, 1, [9]⟩]⟩, []⟩

/-- Counterexample to claim C7 as stated: on this sealed container the
first (and only) slot of the requested algorithm decrypts successfully
with the given key, yet Unseal does not store the root key and returns
RootKeyUnsealFailed, because the source tests the decrypted slice against
nil rather than the Unseal error. -/
theorem unseal_successful_slot_unsealFailed :
    ((⟨0, 0, 1, [9]⟩ : ContainerKeySlot).Unseal c7Prims
        (List.replicate 16 1)).isOk = true ∧
      ContainerFile.Unseal c7Prims c7File 0 (List.replicate 16 1) =
        .error .rootKeyUnsealFailed := by
  constructor
  · rfl
  · rfl

/-- Claim C7, amended: Unseal(alg, key) on a container whose root key is
present returns RootKeyAlreadyUnsealed; on a sealed container it iterates
the slots whose slot_key_algorithm equals alg in order and attempts to
unseal each with the given key; findMatchingSlot yields none exactly when
no slot of the algorithm decrypts successfully, and otherwise the
decrypted value r of the first successfully-decrypting slot, and Unseal
stores r (transitioning to unsealed) when r is nonempty but returns
RootKeyUnsealFailed — leaving the container sealed — when no slot
succeeds or when the first success decrypts to the empty root key. -/
theorem unseal_characterization (P : CryptoPrims) (f : ContainerFile)
    (alg : Nat) (key : List Nat) :
    (f.rootKey ≠ [] →
      ContainerFile.Unseal P f alg key = .error .rootKeyAlreadyUnsealed) ∧
    (f.rootKey = [] →
      (f.findMatchingSlot P alg key = none ↔
        ∀ slot ∈ f.header.slots, slot.slotKeyAlgorithm = alg →
          (slot.Unseal P key).isOk = false) ∧
      (f.findMatchingSlot P alg key = none →
        ContainerFile.Unseal P f alg key = .error .rootKeyUnsealFailed) ∧
      (∀ r i, f.findMatchingSlot P alg key = some (r, i) →
        (i < f.header.slots.length ∧
          (f.header.slots.getD i dfltSlot).slotKeyAlgorithm = alg ∧
          (f.header.slots.getD i dfltSlot).Unseal P key = .ok r ∧
          ∀ t, t < i →
            (f.header.slots.getD t dfltSlot).slotKeyAlgorithm = alg →
            ((f.header.slots.getD t dfltSlot).Unseal P key).isOk = false) ∧
        (r ≠ [] →
          ContainerFile.Unseal P f alg key = .ok { f with rootKey := r }) ∧
        (r = [] →
          ContainerFile.Unseal P f alg key = .error .rootKeyUnsealFailed))) := by
  constructor
  · intro hne
    have hlen : f.rootKey.length ≠ 0 := by
      simpa [List.length_eq_zero] using hne
    simp [ContainerFile.Unseal, hlen]
  · intro hseal
    have hlen : ¬ f.rootKey.length ≠ 0 := by simp [hseal]
    refine ⟨findMatchingSlotFrom_none_iff P alg key 0 f.header.slots, ?_, ?_⟩
    · intro hnone
      simp only [ContainerFile.Unseal, if_neg hlen]
      rw [show f.findMatchingSlot P alg key = none from hnone]
    · intro r i hsome
      obtain ⟨h1, h2, h3, h4, h5⟩ :=
        findMatchingSlotFrom_some_spec P alg key f.header.slots 0 r i hsome
      have hz : i - 0 = i := by omega
      rw [hz] at h2 h3 h4
      refine ⟨⟨h2, h3, h4, fun t ht => h5 t (by omega)⟩, ?_, ?_⟩
      · intro hr
        simp only [ContainerFile.Unseal, if_neg hlen]
        rw [show f.findMatchingSlot P alg key = some (r, i) from hsome]
        simp [hr]
      · intro hr
        simp only [ContainerFile.Unseal, if_neg hlen]
        rw [show f.findMatchingSlot P alg key = some (r, i) from hsome]
        simp [hr]

/-- Counterexample to claim C5 as stated: a 100-byte stream is a short
read, and ParseContainerFileHeader surfaces io.ReadFull's
io.ErrUnexpectedEOF, not InvalidHeader. -/
theorem parseHeader_shortRead_not_invalidHeader :
    ParseContainerFileHeader (List.replicate 100 0) =
        .error .unexpectedEnd ∧
      FcError.unexpectedEnd ≠ FcError.invalidFileHeader := by
  constructor
  · rfl
  · decide

/-- Claim C5, amended: ParseContainerFileHeader reads exactly 4096 bytes
(bytes beyond the first 4096 are ignored) and a short read yields the
underlying end-of-stream error of io.ReadFull — io.EOF on an empty
stream, io.ErrUnexpectedEOF otherwise — not InvalidHeader; if the first
four bytes differ from the magic 0x43 0x52 0x50 0x54 it yields
InvalidHeader; if the version is not (1, 0) it yields UnsupportedVersion;
if the payload algorithm enumerant is at least the sentinel it yields
UnsupportedPayloadAlgorithm; if the slot count is 0 it yields
EmptySlotContent. -/
theorem parseHeader_checks (m0 m1 m2 m3 vMaj vMin f1 f2 a1 a2 ns : Nat)
    (rest short : List Nat) (hshort : short.length < 4096)
    (hlen : 4085 ≤ rest.length) :
    (ParseContainerFileHeader short =
      .error (if short.length = 0 then .eofReached else .unexpectedEnd)) ∧
    (∀ inp : List Nat, 4096 ≤ inp.length →
      ParseContainerFileHeader inp = ParseContainerFileHeader (inp.take 4096)) ∧
    ([m0, m1, m2, m3] ≠ FileMagicNumber →
      ParseContainerFileHeader
        (m0 :: m1 :: m2 :: m3 :: vMaj :: vMin :: f1 :: f2 :: a1 :: a2 :: ns :: rest) =
        .error .invalidFileHeader) ∧
    ([m0, m1, m2, m3] = FileMagicNumber → ¬(vMaj = 1 ∧ vMin = 0) →
      ParseContainerFileHeader
        (m0 :: m1 :: m2 :: m3 :: vMaj :: vMin :: f1 :: f2 :: a1 :: a2 :: ns :: rest) =
        .error .unsupportedVersion) ∧
    ([m0, m1, m2, m3] = FileMagicNumber → vMaj = 1 → vMin = 0 →
      EncAlgEnd ≤ a1 * 256 + a2 →
      ParseContainerFileHeader
        (m0 :: m1 :: m2 :: m3 :: vMaj :: vMin :: f1 :: f2 :: a1 :: a2 :: ns :: rest) =
        .error .unsupportedEncAlgo) ∧
    ([m0, m1, m2, m3] = FileMagicNumber → vMaj = 1 → vMin = 0 →
      a1 * 256 + a2 < EncAlgEnd → ns = 0 →
      ParseContainerFileHeader
        (m0 :: m1 :: m2 :: m3 :: vMaj :: vMin :: f1 :: f2 :: a1 :: a2 :: ns :: rest) =
        .error .emptySlotContent) := by
  have hsplit :
      (m0 :: m1 :: m2 :: m3 :: vMaj :: vMin :: f1 :: f2 :: a1 :: a2 :: ns :: rest) =
        [m0, m1, m2, m3, vMaj, vMin, f1, f2, a1, a2, ns] ++ rest := rfl
  have hlentot :
      (m0 :: m1 :: m2 :: m3 :: vMaj :: vMin :: f1 :: f2 :: a1 :: a2 :: ns :: rest).length =
        11 + rest.length := by simp; omega
  have hnotshort :
      ¬ (m0 :: m1 :: m2 :: m3 :: vMaj :: vMin :: f1 :: f2 :: a1 :: a2 :: ns :: rest).length
        < 4096 := by rw [hlentot]; omega
  have hdata :
      (m0 :: m1 :: m2 :: m3 :: vMaj :: vMin :: f1 :: f2 :: a1 :: a2 :: ns :: rest).take 4096 =
        [m0, m1, m2, m3, vMaj, vMin, f1, f2, a1, a2, ns] ++ rest.take 4085 := by
    rw [hsplit, List.take_append_eq_append_take]
    norm_num
  constructor
  · simp only [ParseContainerFileHeader, if_pos hshort]
  refine ⟨?_, ?_, ?_, ?_, ?_⟩
  · intro inp hinp
    have h1 : ¬ inp.length < 4096 := by omega
    have h2 : ¬ (inp.take 4096).length < 4096 := by
      simp only [List.length_take]; omega
    simp only [ParseContainerFileHeader, if_neg h1, if_neg h2, List.take_take]
    norm_num
  · intro hmagic
    have hm4 :
        ((m0 :: m1 :: m2 :: m3 :: vMaj :: vMin :: f1 :: f2 :: a1 :: a2 :: ns :: rest).take
          4096).take 4 = [m0, m1, m2, m3] := by rw [hdata]; rfl
    simp only [ParseContainerFileHeader, if_neg hnotshort, hm4, if_pos hmagic]
  · intro hmagic hver
    have hm4 :
        ((m0 :: m1 :: m2 :: m3 :: vMaj :: vMin :: f1 :: f2 :: a1 :: a2 :: ns :: rest).take
          4096).take 4 = [m0, m1, m2, m3] := by rw [hdata]; rfl
    simp only [ParseContainerFileHeader, if_neg hnotshort, hm4, hmagic, ne_eq,
      not_true_eq_false, if_false, hdata]
    simp only [List.append_eq, List.cons_append, List.drop_succ_cons, List.drop_zero]
    simp only [readU8, Except.bind, bind]
    have hvv : vMaj ≠ 1 ∨ vMin ≠ 0 := by tauto
    rcases hvv with hv | hv <;> simp [hv, hmagic]
  · intro hmagic hv1 hv2 halg
    have hm4 :
        ((m0 :: m1 :: m2 :: m3 :: vMaj :: vMin :: f1 :: f2 :: a1 :: a2 :: ns :: rest).take
          4096).take 4 = [m0, m1, m2, m3] := by rw [hdata]; rfl
    have halg2 : a1 * 256 + a2 ≥ EncAlgEnd := halg
    simp only [ParseContainerFileHeader, if_neg hnotshort, hm4, hmagic, ne_eq,
      not_true_eq_false, if_false, hdata]
    simp only [List.append_eq, List.cons_append, List.drop_succ_cons, List.drop_zero]
    simp [readU8, readU16BE, Except.bind, bind, hv1, hv2, halg2, ge_iff_le, hmagic]
  · intro hmagic hv1 hv2 halg hns
    have hm4 :
        ((m0 :: m1 :: m2 :: m3 :: vMaj :: vMin :: f1 :: f2 :: a1 :: a2 :: ns :: rest).take
          4096).take 4 = [m0, m1, m2, m3] := by rw [hdata]; rfl
    have halg2 : ¬ a1 * 256 + a2 ≥ EncAlgEnd := by omega
    simp only [ParseContainerFileHeader, if_neg hnotshort, hm4, hmagic, ne_eq,
      not_true_eq_false, if_false, hdata]
    simp only [List.append_eq, List.cons_append, List.drop_succ_cons, List.drop_zero]
    simp [readU8, readU16BE, Except.bind, bind, hv1, hv2, halg2, hns, hmagic]

/-- Header for claim C6: one live slot and one slot destroyed by
ContainerKeySlot.Destroy, the situation of the repository's own test
TestContainerSerializationDeadSlot. -/
def c6Header : ContainerFileHeader :=
  ⟨1, 0, 0, 0, [⟨0, 0, 3, [1, 2, 3]⟩, ContainerKeySlot.Destroy ⟨0, 0, 3, [4, 5, 6]⟩]⟩

/-- Header for claim C6 under the alternative reading of destroy() in
which wiping also empties the content buffer: the destroyed slot then
carries the sentinel algorithm, the destroyed flag and size 0. -/
def c6HeaderEmptied : ContainerFileHeader :=
  ⟨1, 0, 0, 0, [⟨0, 0, 3, [1, 2, 3]⟩, ⟨SlotKeyAlgEnd, 0x8000, 0, []⟩]⟩

/-- Claim C6 evaluated at the failing input: WriteContainerFileHeader
does not filter destroyed slots. With the in-place wipe of destroy() the
destroyed slot's size field (0) no longer matches its content length (3)
and the whole write fails; had destroy() also emptied the buffer, the
write would succeed but emit the destroyed slot — slot count byte 2 and
the sentinel algorithm 0x0001 at offset 20 — and reloading those bytes
fails with UnsupportedSlotAlgorithm rather than yielding only the live
slot. -/
theorem writeHeader_destroyedSlot_fails :
    WriteContainerFileHeader c6Header = .error .slotSizeMismatch ∧
    ((WriteContainerFileHeader c6HeaderEmptied).toOption.getD []).getD 10 0 = 2 ∧
    ((WriteContainerFileHeader c6HeaderEmptied).toOption.getD []).getD 20 0 = 0 ∧
    ((WriteContainerFileHeader c6HeaderEmptied).toOption.getD []).getD 21 0 = 1 ∧
    ParseContainerFileHeader
        ((WriteContainerFileHeader c6HeaderEmptied).toOption.getD []) =
      .error .unsupportedSlotAlgo := by
  have hb : (WriteContainerFileHeader c6HeaderEmptied).toOption.getD [] =
      [67, 82, 80, 84, 1, 0, 0, 0, 0, 0, 2] ++
        ([0, 0, 0, 0, 0, 3, 1, 2, 3] ++
          ([0, 1, 128, 0, 0, 0] ++ List.replicate 4070 0)) := rfl
  refine ⟨rfl, rfl, rfl, rfl, ?_⟩
  rw [hb]
  have hlen : ([67, 82, 80, 84, 1, 0, 0, 0, 0, 0, 2] ++
      ([0, 0, 0, 0, 0, 3, 1, 2, 3] ++
        ([0, 1, 128, 0, 0, 0] ++ List.replicate 4070 0))).length = 4096 := by
    simp only [List.length_append, List.length_cons, List.length_nil,
      List.length_replicate]
  have hs1 : containerReadSlot ([0, 0, 0, 0, 0, 3, 1, 2, 3] ++
      ([0, 1, 128, 0, 0, 0] ++ List.replicate 4070 0)) =
      .ok (⟨0, 0, 3, [1, 2, 3]⟩, [0, 1, 128, 0, 0, 0] ++ List.replicate 4070 0) :=
    containerReadSlot_roundtrip ⟨0, 0, 3, [1, 2, 3]⟩ _ (by decide) (by decide)
      rfl (by decide) _ rfl
  have hs2 : containerReadSlot ([0, 1, 128, 0, 0, 0] ++ List.replicate 4070 0) =
      .error .unsupportedSlotAlgo := by
    have hr : readU16BE ([0, 1, 128, 0, 0, 0] ++ List.replicate 4070 0) =
        .ok (1, [128, 0, 0, 0] ++ List.replicate 4070 0) := rfl
    simp only [containerReadSlot, hr, fcBind_ok]
    rw [if_pos (by decide)]
  have hslots : parseSlots 2 ([0, 0, 0, 0, 0, 3, 1, 2, 3] ++
      ([0, 1, 128, 0, 0, 0] ++ List.replicate 4070 0)) =
      .error .unsupportedSlotAlgo := by
    rw [show (2 : Nat) = 1 + 1 from rfl]
    simp only [parseSlots, hs1, fcBind_ok, hs2, fcBind_err]
  unfold ParseContainerFileHeader
  rw [if_neg (by omega)]
  rw [@List.take_of_length_le _ 4096
    ([67, 82, 80, 84, 1, 0, 0, 0, 0, 0, 2] ++
      ([0, 0, 0, 0, 0, 3, 1, 2, 3] ++
        ([0, 1, 128, 0, 0, 0] ++ List.replicate 4070 0))) (by omega)]
  have hm : ([67, 82, 80, 84, 1, 0, 0, 0, 0, 0, 2] ++
      ([0, 0, 0, 0, 0, 3, 1, 2, 3] ++
        ([0, 1, 128, 0, 0, 0] ++ List.replicate 4070 0))).take 4 =
      FileMagicNumber := rfl
  rw [if_neg (by rw [hm]; simp)]
  have hd : ([67, 82, 80, 84, 1, 0, 0, 0, 0, 0, 2] ++
      ([0, 0, 0, 0, 0, 3, 1, 2, 3] ++
        ([0, 1, 128, 0, 0, 0] ++ List.replicate 4070 0))).drop 4 =
      1 :: 0 :: 0 :: 0 :: 0 :: 0 :: 2 ::
        ([0, 0, 0, 0, 0, 3, 1, 2, 3] ++
          ([0, 1, 128, 0, 0, 0] ++ List.replicate 4070 0)) := rfl
  rw [hd]
  have hr8a : readU8 (1 :: 0 :: 0 :: 0 :: 0 :: 0 :: 2 ::
      ([0, 0, 0, 0, 0, 3, 1, 2, 3] ++
        ([0, 1, 128, 0, 0, 0] ++ List.replicate 4070 0))) =
      .ok (1, 0 :: 0 :: 0 :: 0 :: 0 :: 2 ::
        ([0, 0, 0, 0, 0, 3, 1, 2, 3] ++
          ([0, 1, 128, 0, 0, 0] ++ List.replicate 4070 0))) := rfl
  have hr8b : readU8 (0 :: 0 :: 0 :: 0 :: 0 :: 2 ::
      ([0, 0, 0, 0, 0, 3, 1, 2, 3] ++
        ([0, 1, 128, 0, 0, 0] ++ List.replicate 4070 0))) =
      .ok (0, 0 :: 0 :: 0 :: 0 :: 2 ::
        ([0, 0, 0, 0, 0, 3, 1, 2, 3] ++
          ([0, 1, 128, 0, 0, 0] ++ List.replicate 4070 0))) := rfl
  have hr16a : readU16BE (0 :: 0 :: 0 :: 0 :: 2 ::
      ([0, 0, 0, 0, 0, 3, 1, 2, 3] ++
        ([0, 1, 128, 0, 0, 0] ++ List.replicate 4070 0))) =
      .ok (0, 0 :: 0 :: 2 ::
        ([0, 0, 0, 0, 0, 3, 1, 2, 3] ++
          ([0, 1, 128, 0, 0, 0] ++ List.replicate 4070 0))) := rfl
  have hr16b : readU16BE (0 :: 0 :: 2 ::
      ([0, 0, 0, 0, 0, 3, 1, 2, 3] ++
        ([0, 1, 128, 0, 0, 0] ++ List.replicate 4070 0))) =
      .ok (0, 2 :: ([0, 0, 0, 0, 0, 3, 1, 2, 3] ++
        ([0, 1, 128, 0, 0, 0] ++ List.replicate 4070 0))) := rfl
  have hr8c : readU8 (2 :: ([0, 0, 0, 0, 0, 3, 1, 2, 3] ++
      ([0, 1, 128, 0, 0, 0] ++ List.replicate 4070 0))) =
      .ok (2, [0, 0, 0, 0, 0, 3, 1, 2, 3] ++
        ([0, 1, 128, 0, 0, 0] ++ List.replicate 4070 0)) := rfl
  simp only [hr8a, fcBind_ok, hr8b, hr16a, hr16b, hr8c, hslots, fcBind_err]
  rw [if_neg (by simp)]
  rw [if_neg (by decide)]
  rw [if_neg (by decide)]

/-- Claim C1: for every payload algorithm, slot algorithm, slot key of
the algorithm's key size and plaintext byte sequence: creating a
container, adding a single slot with that key, writing the header,
encrypting the plaintext with EncryptStream, reopening the container from
the file bytes, unsealing with the same slot key, and running
DecryptStream yields exactly the original plaintext. The random values
the code draws (root key, GCM nonce, HKDF salt, IV) are oracle inputs;
the hypotheses are the trusted crypto library's interface guarantees:
HKDF, HMAC and GCM-seal output lengths, and the AEAD round-trip at the
sealed slot. -/
theorem containerRoundTrip_ok (P : CryptoPrims) (alg salg : Nat)
    (rootKey slotKey nonce salt iv plaintext : List Nat)
    (halg : alg < EncAlgEnd) (hsalg : salg < SlotKeyAlgEnd)
    (hroot : rootKey.length = 32) (hkey : slotKey.length = 16)
    (hsalt : salt.length = 32) (hiv : iv.length = 16)
    (hseal : (P.gcmSeal slotKey nonce rootKey).length = 28 + rootKey.length)
    (hopen : P.gcmOpen slotKey (P.gcmSeal slotKey nonce rootKey) = some rootKey)
    (hk0 : (P.hkdf rootKey salt 0 (encKeySize alg)).length = encKeySize alg)
    (hk1 : (P.hkdf rootKey salt 1 authKeySize).length = authKeySize)
    (htag : ∀ msg, (P.hmac (P.hkdf rootKey salt 1 authKeySize) msg).length = 32) :
    (do
      let f0 ← NewContainerFileWithHandle alg rootKey
      let f1 ← ContainerFile.AddKeySlot P f0 salg slotKey nonce
      let hdr ← ContainerFile.WriteHeader f1
      let payload ← ContainerFile.EncryptStream P f1 salt iv plaintext
      let g0 ← OpenContainerFileWithHandle (hdr ++ payload)
      let g1 ← ContainerFile.Unseal P g0 salg slotKey
      ContainerFile.DecryptStream P g1 ((hdr ++ payload).drop 4096)) =
      .ok plaintext := by
  have hsalg1 : salg < 1 := hsalg
  have hsalg0 : salg = 0 := by omega
  subst hsalg0
  have hrne : rootKey ≠ [] := by
    intro hc; rw [hc] at hroot; simp at hroot
  have hkne : slotKey ≠ [] := by
    intro hc; rw [hc] at hkey; simp at hkey
  have hnew : NewContainerFileWithHandle alg rootKey =
      .ok ⟨true, ⟨1, 0, 0, alg, []⟩, rootKey⟩ := by
    rw [NewContainerFileWithHandle, if_neg (by omega)]
  set content := P.gcmSeal slotKey nonce rootKey with hcontent
  have hclen : content.length = 60 := by rw [hcontent, hseal, hroot]
  have hgcm : AESGCMEncryptDirect P slotKey rootKey nonce = .ok content := by
    simp [AESGCMEncryptDirect, AESVerifyKeySize, hkne, hkey]
  have hnewslot : NewContainerKeySlot P 0 0 rootKey slotKey nonce =
      .ok ⟨0, 0, 60, content⟩ := by
    simp only [NewContainerKeySlot, SlotKeyAlgEnd, SlotKeyAlgAESGCM128,
      hgcm, fcBind_ok, hroot, hkey, hclen]
    norm_num
  have hadd : ContainerFile.AddKeySlot P ⟨true, ⟨1, 0, 0, alg, []⟩, rootKey⟩
      0 slotKey nonce =
      .ok ⟨true, ⟨1, 0, 0, alg, [⟨0, 0, 60, content⟩]⟩, rootKey⟩ := by
    rw [ContainerFile.AddKeySlot, if_neg (by rw [hroot]; simp)]
    have hfind : ContainerFile.findMatchingSlot P
        ⟨true, ⟨1, 0, 0, alg, []⟩, rootKey⟩ 0 slotKey = none := rfl
    rw [hfind, hnewslot, fcBind_ok]
    simp
  have hws : writeSlots [(⟨0, 0, 60, content⟩ : ContainerKeySlot)] =
      .ok (be16 0 ++ be16 0 ++ be16 60 ++ content ++ []) := by
    have hcw : containerWriteSlot (⟨0, 0, 60, content⟩ : ContainerKeySlot) =
        .ok (be16 0 ++ be16 0 ++ be16 60 ++ content) := by
      rw [containerWriteSlot, if_neg (by simp [hclen])]
    simp only [writeSlots, hcw, fcBind_ok]
  obtain ⟨hdrBytes, hwrite⟩ : ∃ bs,
      WriteContainerFileHeader ⟨1, 0, 0, alg, [⟨0, 0, 60, content⟩]⟩ =
        .ok bs := by
    have hnotbig : ¬ ((FileMagicNumber ++ [1, 0] ++ be16 0 ++ be16 alg ++
        [1 % 256] ++ (be16 0 ++ be16 0 ++ be16 60 ++ content ++ [])).length >
          4096) := by
      have hblen : (FileMagicNumber ++ [1, 0] ++ be16 0 ++ be16 alg ++
          [1 % 256] ++ (be16 0 ++ be16 0 ++ be16 60 ++ content ++ [])).length =
          77 := by
        simp [FileMagicNumber, be16, List.length_append, hclen]
      rw [hblen]; norm_num
    simp only [WriteContainerFileHeader, List.length_cons, List.length_nil,
      hws, fcBind_ok]
    norm_num
    rw [if_neg (by simpa using hnotbig)]
    exact ⟨_, rfl⟩
  obtain ⟨hp, hlen4096⟩ := parse_write_roundtrip
    ⟨1, 0, 0, alg, [⟨0, 0, 60, content⟩]⟩ rfl rfl (by norm_num) halg
    (by simp) (by simp)
    (by
      intro s hs
      rw [List.mem_singleton] at hs
      subst hs
      exact ⟨by norm_num [SlotKeyAlgEnd], by norm_num, hclen.symm, by norm_num⟩)
    _ hwrite
  have hsz := encKeySize_valid alg halg
  have ha0 : encKeySize alg ≠ 0 := by rcases hsz with h | h <;> omega
  have ha1 : encKeySize alg ≤ 8160 := by rcases hsz with h | h <;> omega
  have hak : authKeySize = 32 := rfl
  have hkneq : P.hkdf rootKey salt 0 (encKeySize alg) ≠
      P.hkdf rootKey salt 1 authKeySize := by
    intro hc2
    have hlc := congrArg List.length hc2
    rw [hk0, hk1, hak] at hlc
    rcases hsz with h | h <;> omega
  have hkeyLens : (P.hkdf rootKey salt 0 (encKeySize alg)).length = 16 ∨
      (P.hkdf rootKey salt 0 (encKeySize alg)).length = 24 ∨
      (P.hkdf rootKey salt 0 (encKeySize alg)).length = 32 := by
    rcases hsz with h | h
    · left; rw [hk0, h]
    · right; left; rw [hk0, h]
  have hkeys := deriveKeys_pair P rootKey salt (encKeySize alg) ha0 ha1 hrne
  have hbody := aesctrEncrypt_ok P (P.hkdf rootKey salt 0 (encKeySize alg)) iv
    (P.hkdf rootKey salt 1 authKeySize) plaintext hkeyLens hkneq hiv
  set c := ctrApplyFrom (P.ks (P.hkdf rootKey salt 0 (encKeySize alg)) iv)
    0 plaintext with hc
  set tg := P.hmac (P.hkdf rootKey salt 1 authKeySize) (iv ++ c) with htg
  have hpay : ContainerFile.EncryptStream P
      ⟨true, ⟨1, 0, 0, alg, [⟨0, 0, 60, content⟩]⟩, rootKey⟩ salt iv plaintext =
      .ok (salt ++ iv ++ (c ++ tg)) := by
    simp only [ContainerFile.EncryptStream, hkeys, fcBind_ok,
      List.getD_cons_zero, List.getD_cons_succ]
    rw [hbody, fcBind_ok]
  have hclen2 : c.length = plaintext.length := by
    rw [hc]; exact ctrApplyFrom_length _ _ _
  have htglen : tg.length = 32 := by rw [htg]; exact htag _
  have hpaylen : (salt ++ iv ++ (c ++ tg)).length =
      48 + (plaintext.length + 32) := by
    simp [List.length_append, hsalt, hiv, hclen2, htglen]; omega
  have hopen0 : OpenContainerFileWithHandle
      (hdrBytes ++ (salt ++ iv ++ (c ++ tg))) =
      .ok ⟨true, ⟨1, 0, 0, alg, [⟨0, 0, 60, content⟩]⟩, []⟩ := by
    rw [OpenContainerFileWithHandle]
    rw [parseHeader_take4096 _ (by
      rw [List.length_append, hlen4096]; omega)]
    rw [List.take_left' hlen4096, hp, fcBind_ok]
  have hunsl : ContainerKeySlot.Unseal P ⟨0, 0, 60, content⟩ slotKey =
      .ok rootKey := by
    simp [ContainerKeySlot.Unseal, AESGCMDecryptDirect, AESVerifyKeySize,
      hkne, hkey, SlotKeyAlgEnd, SlotKeyAlgAESGCM128, hcontent, hopen]
  have huns : ContainerFile.Unseal P
      ⟨true, ⟨1, 0, 0, alg, [⟨0, 0, 60, content⟩]⟩, []⟩ 0 slotKey =
      .ok ⟨true, ⟨1, 0, 0, alg, [⟨0, 0, 60, content⟩]⟩, rootKey⟩ := by
    rw [ContainerFile.Unseal, if_neg (by simp)]
    have hfind : ContainerFile.findMatchingSlot P
        ⟨true, ⟨1, 0, 0, alg, [⟨0, 0, 60, content⟩]⟩, []⟩ 0 slotKey =
        some (rootKey, 0) := by
      simp [ContainerFile.findMatchingSlot, findMatchingSlotFrom, hunsl]
    simp only [hfind, hrne, ne_eq, not_false_eq_true, if_true, ite_true]
  have hdec : ContainerFile.DecryptStream P
      ⟨true, ⟨1, 0, 0, alg, [⟨0, 0, 60, content⟩]⟩, rootKey⟩
      (salt ++ iv ++ (c ++ tg)) = .ok plaintext := by
    have hassoc : salt ++ iv ++ (c ++ tg) = salt ++ (iv ++ (c ++ tg)) := by
      simp [List.append_assoc]
    rw [hassoc, decryptStream_shape P _ salt iv _ hsalt hiv]
    simp only [deriveKeysEx_pair P rootKey salt (encKeySize alg) ha0 ha1 hrne,
      List.getD_cons_zero, List.getD_cons_succ]
    rw [aesctrDecrypt_eval P _ iv _ _ hkeyLens hkneq hiv
      (by rw [List.length_append, hclen2, htglen]; omega)]
    have hsplit : (c ++ tg).length - 32 = c.length := by
      rw [List.length_append, htglen]; omega
    rw [hsplit, List.take_left, List.drop_left, if_pos htg]
    rw [hc, ctrApplyFrom_involutive]
  simp only [hnew, fcBind_ok, hadd, ContainerFile.WriteHeader, hwrite, hpay,
    hopen0, huns, List.drop_left' hlen4096, hdec]

/-- Witness for C1 at a concrete input: the round trip through the
witness primitives with AES-CTR-128, a zero-filled 16-byte slot key
pattern, and a three-byte plaintext returns the plaintext. -/
theorem containerRoundTrip_ok_witness :
    (do
      let f0 ← NewContainerFileWithHandle 0 (List.replicate 32 9)
      let f1 ← ContainerFile.AddKeySlot wPrims f0 0 (List.replicate 16 4)
        (List.replicate 12 3)
      let hdr ← ContainerFile.WriteHeader f1
      let payload ← ContainerFile.EncryptStream wPrims f1
        (List.replicate 32 5) (List.replicate 16 6) [10, 20, 30]
      let g0 ← OpenContainerFileWithHandle (hdr ++ payload)
      let g1 ← ContainerFile.Unseal wPrims g0 0 (List.replicate 16 4)
      ContainerFile.DecryptStream wPrims g1 ((hdr ++ payload).drop 4096)) =
      .ok [10, 20, 30] :=
  containerRoundTrip_ok wPrims 0 0 (List.replicate 32 9) (List.replicate 16 4)
    (List.replicate 12 3) (List.replicate 32 5) (List.replicate 16 6)
    [10, 20, 30] (by decide) (by decide) (by decide) (by decide) (by decide)
    (by decide) (by decide) (by decide) (by decide) (by decide) (fun _ => rfl)

/-- Witness for C5 at concrete inputs: the empty stream is a short read
surfacing io.EOF, and a zero-filled 4096-byte stream fails the magic
check with InvalidHeader. -/
theorem parseHeader_checks_witness :
    ParseContainerFileHeader ([] : List Nat) = .error .eofReached ∧
      ParseContainerFileHeader (0 :: 0 :: 0 :: 0 :: 1 :: 0 :: 0 :: 0 :: 0 ::
        0 :: 1 :: List.replicate 4085 0) = .error .invalidFileHeader := by
  obtain ⟨h1, _, h3, _, _, _⟩ := parseHeader_checks 0 0 0 0 1 0 0 0 0 0 1
    (List.replicate 4085 0) [] (by decide)
    (le_of_eq (List.length_replicate 4085 0).symm)
  exact ⟨by simpa using h1, h3 (by decide)⟩

/-! ## TailReader: operational model of the append-buffer implementation
(internal/io/tail_reader.go, simple version). The wrapped reader is a
list of chunks: each Read call on the source yields the next chunk (a
well-behaved reader yields at least one byte per call until EOF). -/

structure TailReaderS where
  chunks : List (List Nat)
  buf : List Nat
  queue : List Nat
  readEOF : Bool
  size : Nat
  deriving DecidableEq, Repr

/-- One source chunk processed by TailReader.Read's fill loop: append to
buf, and when buf exceeds the withhold size move the excess into the
queue. -/
def fillStep (st : TailReaderS) (ch : List Nat) : TailReaderS :=
  let b := st.buf ++ ch
  if b.length > st.size then
    { st with
      buf := b.drop (b.length - st.size)
      queue := st.queue ++ b.take (b.length - st.size) }
  else { st with buf := b }

theorem fillStep_chunks (st : TailReaderS) (ch : List Nat) :
    (fillStep st ch).chunks = st.chunks := by
  simp only [fillStep]
  split <;> rfl

/-- The fill loop of TailReader.Read: pull source chunks until the queue
can satisfy the request or the source ends. -/
def fillLoop (pLen : Nat) (st : TailReaderS) : TailReaderS :=
  if st.queue.length < pLen ∧ st.readEOF = false then
    match hm : st.chunks with
    | [] => { st with readEOF := true }
    | ch :: rest => fillLoop pLen (fillStep { st with chunks := rest } ch)
  else st
termination_by st.chunks.length
decreasing_by
  simp only [fillStep_chunks, hm, List.length_cons]
  omega

theorem fillLoop_nil (pLen : Nat) (st : TailReaderS)
    (hq : st.queue.length < pLen) (he : st.readEOF = false)
    (hm : st.chunks = []) :
    fillLoop pLen st = { st with readEOF := true } := by
  rw [fillLoop, if_pos (And.intro hq he)]
  split
  · rfl
  · rename_i ch2 rest2 h2
    rw [hm] at h2
    exact absurd h2 (by simp)

theorem fillLoop_cons (pLen : Nat) (st : TailReaderS) (ch : List Nat)
    (rest : List (List Nat)) (hq : st.queue.length < pLen)
    (he : st.readEOF = false) (hm : st.chunks = ch :: rest) :
    fillLoop pLen st = fillLoop pLen (fillStep { st with chunks := rest } ch) := by
  rw [fillLoop, if_pos (And.intro hq he)]
  split
  · rename_i h2
    rw [hm] at h2
    exact absurd h2 (by simp)
  · rename_i ch2 rest2 h2
    rw [hm] at h2
    injection h2 with h3 h4
    subst h3
    subst h4
    rfl

theorem fillLoop_exit (pLen : Nat) (st : TailReaderS)
    (hcond : ¬ (st.queue.length < pLen ∧ st.readEOF = false)) :
    fillLoop pLen st = st := by
  rw [fillLoop, if_neg hcond]

/-- Result of one TailReader.Read call. -/
inductive SReadResult where
  | bytes (out : List Nat) (st : TailReaderS)
  | eofOut (st : TailReaderS)
  deriving Repr

/-- TailReader.Read (append-buffer version): run the fill loop, then
deliver from the queue; io.EOF exactly when the queue is empty and the
source has ended. -/
def TailReaderS.readS (st : TailReaderS) (pLen : Nat) : SReadResult :=
  let st1 := fillLoop pLen st
  if st1.queue = [] then
    if st1.readEOF then .eofOut st1 else .bytes [] st1
  else .bytes (st1.queue.take pLen) { st1 with queue := st1.queue.drop pLen }

/-- Termination measure of the consumer drain: source bytes and chunks
still unread, undelivered buffered bytes, and the EOF flag. -/
def tailMeasure (st : TailReaderS) : Nat :=
  (st.chunks.map List.length).sum + st.chunks.length + st.queue.length +
    st.buf.length + (if st.readEOF then 0 else 1)

/-- Invariant tying the tail buffer to the bytes seen so far: d is the
number of bytes already delivered to the consumer. -/
def tailInv (d : Nat) (st : TailReaderS) : Prop :=
  st.buf.length = min st.size (d + st.queue.length + st.buf.length) ∧
  (st.readEOF = true → st.chunks = []) ∧
  (∀ ch ∈ st.chunks, ch ≠ [])

theorem fillStep_spec (st : TailReaderS) (ch : List Nat) (d : Nat)
    (hch : ch ≠ [])
    (hb : st.buf.length = min st.size (d + st.queue.length + st.buf.length)) :
    (fillStep st ch).buf.length =
      min (fillStep st ch).size
        (d + (fillStep st ch).queue.length + (fillStep st ch).buf.length) ∧
    (fillStep st ch).queue ++ (fillStep st ch).buf = st.queue ++ st.buf ++ ch ∧
    (fillStep st ch).chunks = st.chunks ∧
    (fillStep st ch).size = st.size ∧
    (fillStep st ch).readEOF = st.readEOF ∧
    (fillStep st ch).queue.length + (fillStep st ch).buf.length =
      st.queue.length + st.buf.length + ch.length := by
  have hchpos : 0 < ch.length := List.length_pos.mpr hch
  unfold fillStep
  by_cases hover : (st.buf ++ ch).length > st.size
  · rw [if_pos hover]
    simp only [List.length_drop, List.length_append] at hover ⊢
    refine ⟨?_, ?_, trivial, trivial, trivial, ?_⟩
    · simp only [List.length_append, List.length_take, List.length_drop]
      omega
    · simp only [List.append_assoc, List.take_append_drop]
    · simp only [List.length_append, List.length_take, List.length_drop]
      omega
  · rw [if_neg hover]
    simp only [List.length_append] at hover
    refine ⟨?_, by simp [List.append_assoc], rfl, rfl, rfl, by
      simp only [List.length_append]; omega⟩
    simp only [List.length_append]
    rcases Nat.le_total st.size (d + st.queue.length + st.buf.length) with
      hcase | hcase
    · rw [min_eq_left hcase] at hb
      omega
    · rw [min_eq_right hcase] at hb
      have hd0 : d = 0 ∧ st.queue.length = 0 := by omega
      rw [min_eq_right (by omega)]
      omega

theorem tailMeasure_fillStep (st : TailReaderS) (ch : List Nat) :
    tailMeasure (fillStep st ch) = tailMeasure st + ch.length := by
  simp only [tailMeasure, fillStep]
  split
  · dsimp only
    simp only [List.length_append, List.length_take, List.length_drop]
    omega
  · dsimp only
    simp only [List.length_append]
    omega

theorem fillLoop_spec (pLen : Nat) (d : Nat) : ∀ st : TailReaderS,
    tailInv d st →
    tailInv d (fillLoop pLen st) ∧
    (fillLoop pLen st).size = st.size ∧
    (fillLoop pLen st).queue ++ (fillLoop pLen st).buf ++
        (fillLoop pLen st).chunks.flatten =
      st.queue ++ st.buf ++ st.chunks.flatten ∧
    (pLen ≤ (fillLoop pLen st).queue.length ∨
      (fillLoop pLen st).readEOF = true) ∧
    tailMeasure (fillLoop pLen st) ≤ tailMeasure st := by
  intro st0
  induction st0 using fillLoop.induct pLen with
  | case1 st hcond hmatch =>
      intro hInv
      rw [fillLoop_nil pLen st hcond.1 hcond.2 hmatch]
      refine ⟨⟨hInv.1, fun _ => hmatch, ?_⟩, rfl, rfl, Or.inr rfl, ?_⟩
      · intro c hc
        simp only [hmatch] at hc
        simp at hc
      · unfold tailMeasure
        dsimp only
        rw [hmatch, hcond.2]
        simp

  | case2 st hcond ch rest hmatch ih =>
      intro hInv
      rw [fillLoop_cons pLen st ch rest hcond.1 hcond.2 hmatch]
      obtain ⟨h1, h2, h3⟩ := hInv
      have hch : ch ≠ [] := h3 ch (by rw [hmatch]; exact List.mem_cons_self ch rest)
      obtain ⟨f1, f0, g0, e0, r0, s0⟩ :=
        fillStep_spec { st with chunks := rest } ch d hch h1
      have f2 : (fillStep { st with chunks := rest } ch).queue ++
          (fillStep { st with chunks := rest } ch).buf =
          st.queue ++ st.buf ++ ch := f0
      have f3 : (fillStep { st with chunks := rest } ch).chunks = rest := g0
      have f4 : (fillStep { st with chunks := rest } ch).size = st.size := e0
      have f5 : (fillStep { st with chunks := rest } ch).readEOF = st.readEOF := r0
      have f6 : (fillStep { st with chunks := rest } ch).queue.length +
          (fillStep { st with chunks := rest } ch).buf.length =
          st.queue.length + st.buf.length + ch.length := s0
      have hInv2 : tailInv d (fillStep { st with chunks := rest } ch) := by
        refine ⟨f1, ?_, ?_⟩
        · rw [f5, f3]
          intro he
          exact absurd (h2 he) (by rw [hmatch]; simp)
        · rw [f3]
          intro c2 hc2
          exact h3 c2 (by rw [hmatch]; exact List.mem_cons_of_mem ch hc2)
      obtain ⟨g1, g2, g3, g4, g5⟩ := ih hInv2
      refine ⟨g1, by rw [g2, f4], ?_, g4, ?_⟩
      · rw [g3]
        have hflat : st.chunks.flatten = ch ++ rest.flatten := by
          rw [hmatch]; rfl
        calc (fillStep { st with chunks := rest } ch).queue ++
              (fillStep { st with chunks := rest } ch).buf ++
              (fillStep { st with chunks := rest } ch).chunks.flatten
            = (st.queue ++ st.buf ++ ch) ++ rest.flatten := by rw [f3, f2]
          _ = st.queue ++ st.buf ++ st.chunks.flatten := by
              rw [hflat]; simp [List.append_assoc]
      · refine le_trans g5 ?_
        have hA := tailMeasure_fillStep { st with chunks := rest } ch
        have hB : tailMeasure { st with chunks := rest } + ch.length + 1 =
            tailMeasure st := by
          unfold tailMeasure
          rw [hmatch]
          dsimp only
          simp only [List.map_cons, List.sum_cons, List.length_cons]
          omega
        omega

  | case3 st hcond =>
      intro hInv
      rw [fillLoop_exit pLen st hcond]
      refine ⟨hInv, rfl, rfl, ?_, le_refl _⟩
      by_cases he : st.readEOF = true
      · right; exact he
      · left
        have hf : st.readEOF = false := by
          cases hx : st.readEOF
          · rfl
          · exact absurd hx he
        by_cases hq : st.queue.length < pLen
        · exact absurd ⟨hq, hf⟩ hcond
        · omega

/-- A fresh TailReader (NewTailReader): empty tail buffer and queue over
the given source. -/
def NewTailReaderS (chunks : List (List Nat)) (size : Nat) : TailReaderS :=
  ⟨chunks, [], [], false, size⟩

/-- All bytes the reader still holds, in consumer order: the exposed
queue, the withheld tail buffer, then the unread source. -/
def content (st : TailReaderS) : List Nat :=
  st.queue ++ st.buf ++ st.chunks.flatten

theorem readS_queue_nil (pLen : Nat) (st : TailReaderS)
    (hq : (fillLoop pLen st).queue = [])
    (he : (fillLoop pLen st).readEOF = true) :
    st.readS pLen = .eofOut (fillLoop pLen st) := by
  simp only [TailReaderS.readS]
  rw [if_pos hq, if_pos he]

theorem readS_queue_cons (pLen : Nat) (st : TailReaderS)
    (hq : (fillLoop pLen st).queue ≠ []) :
    st.readS pLen = .bytes ((fillLoop pLen st).queue.take pLen)
      { fillLoop pLen st with queue := (fillLoop pLen st).queue.drop pLen } := by
  simp only [TailReaderS.readS]
  rw [if_neg hq]

/-- Repeated TailReader.Read calls (as io.Copy or the stream cipher loop
performs them) until io.EOF, concatenating the delivered bytes. The
flag records that EOF was reached within the given fuel. -/
def drainFuel : Nat → Nat → TailReaderS → List Nat × TailReaderS × Bool
  | 0, _, st => ([], st, false)
  | fuel + 1, pLen, st =>
    match st.readS pLen with
    | .eofOut st1 => ([], st1, true)
    | .bytes out st1 =>
      let r := drainFuel fuel pLen st1
      (out ++ r.1, r.2)

theorem drainFuel_spec (pLen : Nat) (hp : 0 < pLen) : ∀ fuel : Nat,
    ∀ st : TailReaderS, ∀ d : Nat, tailMeasure st < fuel → tailInv d st →
    (drainFuel fuel pLen st).2.2 = true ∧
    tailInv (d + (drainFuel fuel pLen st).1.length)
      (drainFuel fuel pLen st).2.1 ∧
    (drainFuel fuel pLen st).1 ++ content (drainFuel fuel pLen st).2.1 =
      content st ∧
    (drainFuel fuel pLen st).2.1.queue = [] ∧
    (drainFuel fuel pLen st).2.1.chunks = [] ∧
    (drainFuel fuel pLen st).2.1.readEOF = true ∧
    (drainFuel fuel pLen st).2.1.size = st.size := by
  intro fuel
  induction fuel with
  | zero =>
      intro st d hm hInv
      exact absurd hm (by omega)
  | succ fuel ih =>
      intro st d hm hInv
      obtain ⟨g1, g2, g3, g4, g5⟩ := fillLoop_spec pLen d st hInv
      by_cases hq : (fillLoop pLen st).queue = []
      · have he : (fillLoop pLen st).readEOF = true := by
          rcases g4 with h | h
          · rw [hq] at h
            simp at h
            omega
          · exact h
        have hr : st.readS pLen = .eofOut (fillLoop pLen st) :=
          readS_queue_nil pLen st hq he
        have heq : drainFuel (fuel + 1) pLen st = ([], fillLoop pLen st, true) := by
          simp only [drainFuel, hr]
        rw [heq]
        refine ⟨rfl, ?_, ?_, hq, g1.2.1 he, he, g2⟩
        · simpa using g1
        · simpa [content] using g3
      · have hr := readS_queue_cons pLen st hq
        set st1 := fillLoop pLen st with hst1
        set out := st1.queue.take pLen with hout
        set st2 : TailReaderS := { st1 with queue := st1.queue.drop pLen }
          with hst2
        have houtlen : out.length = min pLen st1.queue.length := by
          rw [hout]; exact List.length_take pLen st1.queue
        have hqpos : 0 < st1.queue.length := List.length_pos.mpr hq
        have houtpos : 0 < out.length := by rw [houtlen]; omega
        have hq2len : st2.queue.length = st1.queue.length - pLen := by
          rw [hst2]; exact List.length_drop pLen st1.queue
        have hInv2 : tailInv (d + out.length) st2 := by
          obtain ⟨i1, i2, i3⟩ := g1
          refine ⟨?_, i2, i3⟩
          show st1.buf.length =
            min st1.size (d + out.length + st2.queue.length + st1.buf.length)
          have : d + out.length + st2.queue.length = d + st1.queue.length := by
            rw [houtlen, hq2len]; omega
          rw [this]
          exact i1
        have hm2 : tailMeasure st2 < fuel := by
          have h2m : tailMeasure st2 + out.length = tailMeasure st1 := by
            unfold tailMeasure
            rw [hst2]
            dsimp only
            rw [houtlen, hq2len]
            omega
          omega
        obtain ⟨j1, j2, j3, j4, j5, j6, j7⟩ := ih st2 (d + out.length) hm2 hInv2
        have heq : drainFuel (fuel + 1) pLen st =
            (out ++ (drainFuel fuel pLen st2).1,
              (drainFuel fuel pLen st2).2) := by
          simp only [drainFuel, hr]
        rw [heq]
        have hcont : out ++ content st2 = content st1 := by
          unfold content
          rw [hst2]
          dsimp only
          rw [hout]
          simp only [List.append_assoc]
          rw [← List.append_assoc (st1.queue.take pLen),
            List.take_append_drop]
        refine ⟨j1, ?_, ?_, j4, j5, j6, by rw [j7, hst2]; exact g2⟩
        · simp only [List.length_append]
          have : d + (out.length + (drainFuel fuel pLen st2).1.length) =
              d + out.length + (drainFuel fuel pLen st2).1.length := by omega
          rw [this]
          exact j2
        · calc out ++ (drainFuel fuel pLen st2).1 ++
                content (drainFuel fuel pLen st2).2.1
              = out ++ ((drainFuel fuel pLen st2).1 ++
                  content (drainFuel fuel pLen st2).2.1) := by
                simp [List.append_assoc]
            _ = out ++ content st2 := by rw [j3]
            _ = content st1 := hcont
            _ = content st := g3

/-- TailReader.Tail: drain the wrapped reader if EOF was not reached yet,
then return the withheld buffer, or io.ErrUnexpectedEOF when fewer than
size bytes were seen. -/
def TailReaderS.tailS (fuel pLen : Nat) (st : TailReaderS) :
    Except FcError (List Nat) :=
  let st1 := if st.readEOF then st else (drainFuel fuel pLen st).2.1
  if st1.buf.length < st1.size then .error .unexpectedEnd
  else .ok st1.buf

/-- Contract of the append-buffer TailReader (internal/io/tail_reader.go):
over any well-behaved source (each Read yields at least one byte until
EOF), with enough fuel, the bytes delivered by repeated Read calls are
the source minus its last size bytes, and Tail returns exactly those
last size bytes, or io.ErrUnexpectedEOF when the source is shorter than
size. -/
theorem tailReaderS_contract (chunks : List (List Nat)) (size pLen fuel : Nat)
    (hch : ∀ ch ∈ chunks, ch ≠ []) (hp : 0 < pLen)
    (hfuel : tailMeasure (NewTailReaderS chunks size) < fuel) :
    (drainFuel fuel pLen (NewTailReaderS chunks size)).1 =
      tailReaderDelivered chunks.flatten size ∧
    TailReaderS.tailS fuel pLen
        (drainFuel fuel pLen (NewTailReaderS chunks size)).2.1 =
      tailReaderTail chunks.flatten size := by
  have hInv0 : tailInv 0 (NewTailReaderS chunks size) := by
    refine ⟨?_, ?_, ?_⟩
    · show (0 : Nat) = min size 0
      omega
    · intro h
      exact absurd h (by simp [NewTailReaderS])
    · exact hch
  obtain ⟨j1, j2, j3, j4, j5, j6, j7⟩ :=
    drainFuel_spec pLen hp fuel (NewTailReaderS chunks size) 0 hfuel hInv0
  set stF := (drainFuel fuel pLen (NewTailReaderS chunks size)).2.1 with hstF
  set out := (drainFuel fuel pLen (NewTailReaderS chunks size)).1 with hout
  have hcF : content stF = stF.buf := by
    unfold content
    rw [j4, j5]
    simp
  have hsplit : out ++ stF.buf = chunks.flatten := by
    rw [← hcF]
    have h0 : content (NewTailReaderS chunks size) = chunks.flatten := by
      unfold content NewTailReaderS
      simp
    rw [← h0]
    exact j3
  have hlen : out.length + stF.buf.length = chunks.flatten.length := by
    rw [← hsplit]
    simp
  have hbuf : stF.buf.length =
      min size (out.length + stF.buf.length) := by
    have := j2.1
    rw [j4] at this
    simpa [j7, NewTailReaderS] using this
  have htake : out = chunks.flatten.take out.length := by
    rw [← hsplit, List.take_left]
  have hdrop : stF.buf = chunks.flatten.drop out.length := by
    rw [← hsplit, List.drop_left]
  have htail : TailReaderS.tailS fuel pLen stF =
      (if stF.buf.length < stF.size then
          (.error .unexpectedEnd : Except FcError (List Nat))
        else .ok stF.buf) := by
    unfold TailReaderS.tailS
    rw [j6]
    rfl
  constructor
  · rw [tailReaderDelivered, htake]
    have : out.length = chunks.flatten.length - size := by omega
    rw [this]
  · rw [htail, tailReaderTail, j7]
    show (if stF.buf.length < size then _ else _) =
      (if chunks.flatten.length < size then _ else _)
    by_cases hc : chunks.flatten.length < size
    · rw [if_pos (by omega : stF.buf.length < size), if_pos hc]
    · have hbl : stF.buf.length = size := by omega
      rw [if_neg (by omega : ¬ stF.buf.length < size), if_neg hc, hdrop]
      have : out.length = chunks.flatten.length - size := by omega
      rw [this]

/-! ## TailReader: the ring-buffer variant (src/unnamed/part_006). The
backing queue array is modelled as a total function together with its
capacity; a Go slice expression whose bounds fall outside the slice is a
runtime panic and is modelled as an explicit panicked outcome. The Go
heads readHead/fillHead are non-negative throughout, so they are Nat
here; the derived quantities buffered() and fillHead-size that Go
computes in int (and that can go negative) are computed in Int. -/

structure RingTR where
  chunks : List (List Nat)
  queue : Nat → Nat
  queueCap : Nat
  bufData : Nat → Nat
  bufLen : Nat
  size : Nat
  readHead : Nat
  fillHead : Nat
  readEOF : Bool

/-- NewTailReader (ring variant): empty tail buffer of capacity size, a
queue array of max(size, 3*4096) zero bytes. -/
def NewRingTailReader (chunks : List (List Nat)) (size : Nat) : RingTR :=
  { chunks := chunks
    queue := fun _ => 0
    queueCap := max size (3 * 4096)
    bufData := fun _ => 0
    bufLen := 0
    size := size
    readHead := 0
    fillHead := 0
    readEOF := false }

/-- tr.buffered() = tr.fillHead - tr.readHead - tr.size (Go int). -/
def RingTR.buffered (st : RingTR) : Int :=
  (st.fillHead : Int) - st.readHead - st.size

/-- tr.unsplit(): copy buf back after fillHead, then tr.buf = tr.buf[0:]
(which keeps the length — the source does not reset it to zero). -/
def RingTR.unsplit (st : RingTR) : RingTR :=
  if 0 < st.bufLen ∧ st.fillHead + st.bufLen < st.queueCap then
    { st with
      queue := fun i =>
        if st.fillHead ≤ i ∧ i < st.fillHead + st.bufLen then
          st.bufData (i - st.fillHead)
        else st.queue i
      fillHead := st.fillHead + st.bufLen }
  else st

/-- tr.slideBuffer(): move queue[readHead:fillHead] to the front. -/
def RingTR.slideBuffer (st : RingTR) : RingTR :=
  if 0 < st.readHead then
    { st with
      queue := fun i =>
        if i < st.fillHead - st.readHead then st.queue (st.readHead + i)
        else st.queue i
      fillHead := st.fillHead - st.readHead
      readHead := 0 }
  else st

/-- One source Read into queue[fillHead:]: the next chunk, clipped to the
room left; the clipped-off remainder stays unread. chunks = [] is EOF. -/
def ringFill (st : RingTR) : RingTR :=
  match st.chunks with
  | [] => { st with readEOF := true }
  | ch :: rest =>
    let n := min ch.length (st.queueCap - st.fillHead)
    { st with
      chunks := if n < ch.length then ch.drop n :: rest else rest
      queue := fun i =>
        if st.fillHead ≤ i ∧ i < st.fillHead + n then
          ch.getD (i - st.fillHead) 0
        else st.queue i
      fillHead := st.fillHead + n }

/-- The fill-and-copy loop of the ring Read: while copied < len(p) and
(not readEOF or buffered() > 0): fill from the source unless readEOF,
publish queue[readHead : fillHead-size] into p, slide when the queue
array is full. Returns (bytes copied to p, copied, state); none = fuel
ran out. -/
def ringReadLoop : Nat → Nat → Nat → List Nat → RingTR →
    Option (List Nat × Nat × RingTR)
  | 0, _, _, _, _ => none
  | fuel + 1, outSize, copied, acc, st =>
    if copied < outSize ∧ (st.readEOF = false ∨ 0 < st.buffered) then
      let st1 := if st.readEOF then st else ringFill st
      let endIdx : Int := (st1.fillHead : Int) - st1.size
      let (acc2, copied2, st2) :=
        if (st1.readHead : Int) < endIdx then
          let n := min (outSize - copied) (endIdx - st1.readHead).toNat
          (acc ++ (List.range n).map (fun i => st1.queue (st1.readHead + i)),
            copied + n, { st1 with readHead := st1.readHead + n })
        else (acc, copied, st1)
      let st3 := if st2.fillHead = st2.queueCap then st2.slideBuffer else st2
      ringReadLoop fuel outSize copied2 acc2 st3
    else some (acc, copied, st)

inductive RingReadOut where
  | ok (out : List Nat) (st : RingTR)
  | eof (st : RingTR)
  | zero (st : RingTR)
  | panicked
  | fuelOut

/-- TailReader.Read (ring variant): slide, unsplit, run the loop, then
either return io.EOF / no data, or steal the last size bytes of the
queue into buf. The steal slices queue[fillHead-size : fillHead]: when
fillHead < size that low bound is negative and Go panics. -/
def RingTR.read (fuel : Nat) (st : RingTR) (outSize : Nat) : RingReadOut :=
  let st0 := (st.slideBuffer).unsplit
  match ringReadLoop fuel outSize 0 [] st0 with
  | none => .fuelOut
  | some (acc, copied, st1) =>
    if st1.buffered = 0 ∧ copied = 0 then
      if st1.readEOF then .eof st1 else .zero st1
    else
      if (st1.fillHead : Int) - st1.size < 0 then .panicked
      else
        .ok acc
          { st1 with
            bufData := fun i =>
              if i < st1.size then st1.queue (st1.fillHead - st1.size + i)
              else st1.bufData i
            bufLen := st1.size
            fillHead := st1.fillHead - st1.size }

inductive RingDrainRes where
  | done (st : RingTR)
  | panicked
  | fuelOut

/-- io.Copy(io.Discard, tr): call Read until io.EOF. -/
def ringDrain : Nat → RingTR → RingDrainRes
  | 0, _ => .fuelOut
  | fuel + 1, st =>
    match st.read (fuel + 1) 32768 with
    | .ok _ st1 => ringDrain fuel st1
    | .zero st1 => ringDrain fuel st1
    | .eof st1 => .done st1
    | .panicked => .panicked
    | .fuelOut => .fuelOut

inductive RingTailOutcome where
  | ok (tail : List Nat)
  | err (e : FcError)
  | panicked
  | fuelOut
  deriving DecidableEq, Repr

/-- TailReader.Tail (ring variant): drain the source if EOF was not
reached, then return a copy of buf, or io.ErrUnexpectedEOF when buf
holds fewer than size bytes. -/
def RingTR.tailResult (fuel : Nat) (st : RingTR) : RingTailOutcome :=
  match (if st.readEOF then RingDrainRes.done st else ringDrain fuel st) with
  | .panicked => .panicked
  | .fuelOut => .fuelOut
  | .done st1 =>
    if st1.bufLen < st1.size then .err .unexpectedEnd
    else .ok ((List.range st1.bufLen).map st1.bufData)

/-- C4: the claim states the TailReader contract for both
implementations, but the ring-buffer variant violates it. A source of
exactly N = 4 bytes must give Tail() = those 4 bytes; the ring variant
delivers nothing into buf (the steal is skipped because buffered() = 0
and copied = 0 make Read return io.EOF early) and Tail() returns
io.ErrUnexpectedEOF. A source of 2 < N bytes must give UnexpectedEnd;
instead Read slices queue[fillHead-size:fillHead] with a negative low
bound and panics. The append-buffer variant does satisfy the contract
(tailReaderS_contract). -/
theorem ringTailReader_exactN_unexpectedEnd :
    (NewRingTailReader [[1, 2, 3, 4]] 4).tailResult 16 =
      .err .unexpectedEnd ∧
    (NewRingTailReader [[1, 2]] 4).tailResult 16 = .panicked ∧
    tailReaderTail [1, 2, 3, 4] 4 = .ok [1, 2, 3, 4] ∧
    tailReaderTail [1, 2] 4 = .error .unexpectedEnd := by
  refine ⟨rfl, rfl, rfl, rfl⟩

end Filecrypt